import Mathlib

/-! Shallow embedding of `src/bezier.rs` (Bézier curve module) and verification of
its specification claims.  Scalars are modelled by an arbitrary commutative ring
where the code is pure polynomial arithmetic, by `ℚ` (exact and executable) for
the point-projection search, and by `ℝ` where square roots (magnitudes) occur.
The `u32` loop bound of `length_by_discretization` is modelled with an explicit
`% 2 ^ 32` wraparound.  Collaborator operations that live outside `src/bezier.rs`
(vector arithmetic, magnitude, normalization, matrix application, line segments)
are modelled from the spec, as indicated on each definition. -/

/-- Modelled from the spec: a 2D point/vector collaborator with componentwise
arithmetic (spec section 6). -/
structure Vec2 (K : Type) where
  x : K
  y : K
  deriving DecidableEq

/-- Modelled from the spec: a 3D point/vector collaborator, also used as the row
type of 3x3 matrices. -/
structure Vec3 (K : Type) where
  x : K
  y : K
  z : K
  deriving DecidableEq

/-- Modelled from the spec: a 4-component vector, the row type of 4x4 matrices. -/
structure Vec4 (K : Type) where
  x : K
  y : K
  z : K
  w : K
  deriving DecidableEq

def Vec2.add {K : Type} [CommRing K] (a b : Vec2 K) : Vec2 K :=
  ⟨a.x + b.x, a.y + b.y⟩

def Vec2.sub {K : Type} [CommRing K] (a b : Vec2 K) : Vec2 K :=
  ⟨a.x - b.x, a.y - b.y⟩

/-- Multiplication of a point by a scalar on the right, `p * s` in the source. -/
def Vec2.mul {K : Type} [CommRing K] (a : Vec2 K) (s : K) : Vec2 K :=
  ⟨a.x * s, a.y * s⟩

def Vec3.add {K : Type} [CommRing K] (a b : Vec3 K) : Vec3 K :=
  ⟨a.x + b.x, a.y + b.y, a.z + b.z⟩

def Vec3.sub {K : Type} [CommRing K] (a b : Vec3 K) : Vec3 K :=
  ⟨a.x - b.x, a.y - b.y, a.z - b.z⟩

def Vec3.mul {K : Type} [CommRing K] (a : Vec3 K) (s : K) : Vec3 K :=
  ⟨a.x * s, a.y * s, a.z * s⟩

def Vec3.dot {K : Type} [CommRing K] (a b : Vec3 K) : K :=
  a.x * b.x + a.y * b.y + a.z * b.z

def Vec4.dot {K : Type} [CommRing K] (a b : Vec4 K) : K :=
  a.x * b.x + a.y * b.y + a.z * b.z + a.w * b.w

/-- Modelled from the spec: squared distance between two points (spec section 6),
the squared magnitude of the difference. -/
def Vec2.distance_squared {K : Type} [CommRing K] (a b : Vec2 K) : K :=
  (a.x - b.x) * (a.x - b.x) + (a.y - b.y) * (a.y - b.y)

/-- Modelled from the spec: a line segment collaborator with two named endpoints
`a` and `b` (spec sections 1 and 6). -/
structure LineSegment2 (K : Type) where
  a : Vec2 K
  b : Vec2 K
  deriving DecidableEq

/-- Modelled from the spec: the 3D line segment collaborator. -/
structure LineSegment3 (K : Type) where
  a : Vec3 K
  b : Vec3 K
  deriving DecidableEq

/-- A row-major 3x3 matrix, matching the source's `Mat3 { rows: CVec3<Vec3> }`. -/
structure Mat3 (K : Type) where
  r0 : Vec3 K
  r1 : Vec3 K
  r2 : Vec3 K
  deriving DecidableEq

/-- A row-major 4x4 matrix, matching the source's `Mat4 { rows: CVec4<Vec4> }`. -/
structure Mat4 (K : Type) where
  r0 : Vec4 K
  r1 : Vec4 K
  r2 : Vec4 K
  r3 : Vec4 K
  deriving DecidableEq

/-- Modelled from the spec: row-major matrix-vector product (spec section 6:
multiply a point/vector against a matrix built from rows). -/
def Mat3.mulVec3 {K : Type} [CommRing K] (m : Mat3 K) (v : Vec3 K) : Vec3 K :=
  ⟨m.r0.dot v, m.r1.dot v, m.r2.dot v⟩

/-- Modelled from the spec: application of a 3x3 matrix to a 2D point using the
homogeneous convention of spec section 4.5 (treating points as homogeneous 2D,
third coordinate 1), then dropping the third coordinate; this models
`(m * Vec3::from(p)).into()` from `transformed_by_mat3`. -/
def Mat3.mulPoint2 {K : Type} [CommRing K] (m : Mat3 K) (p : Vec2 K) : Vec2 K :=
  let r := m.mulVec3 ⟨p.x, p.y, 1⟩
  ⟨r.x, r.y⟩

def Mat4.mulVec4 {K : Type} [CommRing K] (m : Mat4 K) (v : Vec4 K) : Vec4 K :=
  ⟨m.r0.dot v, m.r1.dot v, m.r2.dot v, m.r3.dot v⟩

/-- Modelled from the spec: `Mat4::mul_point` applies the matrix to the point in
the homogeneous 3D point-transform convention of spec section 4.5 (fourth
coordinate 1), then drops the fourth coordinate. -/
def Mat4.mul_point {K : Type} [CommRing K] (m : Mat4 K) (p : Vec3 K) : Vec3 K :=
  let r := m.mulVec4 ⟨p.x, p.y, p.z, 1⟩
  ⟨r.x, r.y, r.z⟩

/-- The 2D quadratic Bézier curve `{ start, ctrl, end }` of the source (the
field `end` is renamed `end'` because `end` is a Lean keyword). -/
structure QuadraticBezier2 (K : Type) where
  start : Vec2 K
  ctrl : Vec2 K
  end' : Vec2 K
  deriving DecidableEq

/-- The 3D quadratic Bézier curve. -/
structure QuadraticBezier3 (K : Type) where
  start : Vec3 K
  ctrl : Vec3 K
  end' : Vec3 K
  deriving DecidableEq

/-- The 2D cubic Bézier curve `{ start, ctrl0, ctrl1, end }` of the source. -/
structure CubicBezier2 (K : Type) where
  start : Vec2 K
  ctrl0 : Vec2 K
  ctrl1 : Vec2 K
  end' : Vec2 K
  deriving DecidableEq

/-- The 3D cubic Bézier curve. -/
structure CubicBezier3 (K : Type) where
  start : Vec3 K
  ctrl0 : Vec3 K
  ctrl1 : Vec3 K
  end' : Vec3 K
  deriving DecidableEq

/-- `QuadraticBezier::evaluate`:
`self.start*(l-t)*(l-t) + self.ctrl*two*(l-t)*t + self.end*t*t`. -/
def QuadraticBezier2.evaluate {K : Type} [CommRing K] (c : QuadraticBezier2 K)
    (t : K) : Vec2 K :=
  (((c.start.mul (1 - t)).mul (1 - t)).add
    ((((c.ctrl.mul 2).mul (1 - t)).mul t))).add ((c.end'.mul t).mul t)

def QuadraticBezier3.evaluate {K : Type} [CommRing K] (c : QuadraticBezier3 K)
    (t : K) : Vec3 K :=
  (((c.start.mul (1 - t)).mul (1 - t)).add
    ((((c.ctrl.mul 2).mul (1 - t)).mul t))).add ((c.end'.mul t).mul t)

/-- `CubicBezier::evaluate`:
`start*(l-t)^3 + ctrl0*3*(l-t)^2*t + ctrl1*3*(l-t)*t^2 + end*t^3`
written with the source's left-associated products. -/
def CubicBezier2.evaluate {K : Type} [CommRing K] (c : CubicBezier2 K)
    (t : K) : Vec2 K :=
  (((((c.start.mul (1 - t)).mul (1 - t)).mul (1 - t)).add
      ((((c.ctrl0.mul 3).mul (1 - t)).mul (1 - t)).mul t)).add
    ((((c.ctrl1.mul 3).mul (1 - t)).mul t).mul t)).add
    (((c.end'.mul t).mul t).mul t)

def CubicBezier3.evaluate {K : Type} [CommRing K] (c : CubicBezier3 K)
    (t : K) : Vec3 K :=
  (((((c.start.mul (1 - t)).mul (1 - t)).mul (1 - t)).add
      ((((c.ctrl0.mul 3).mul (1 - t)).mul (1 - t)).mul t)).add
    ((((c.ctrl1.mul 3).mul (1 - t)).mul t).mul t)).add
    (((c.end'.mul t).mul t).mul t)

/-- `QuadraticBezier::evaluate_derivative`:
`(ctrl-start)*(l-t)*n + (end-ctrl)*t*n` with `n = 2`. -/
def QuadraticBezier2.evaluate_derivative {K : Type} [CommRing K]
    (c : QuadraticBezier2 K) (t : K) : Vec2 K :=
  (((c.ctrl.sub c.start).mul (1 - t)).mul 2).add (((c.end'.sub c.ctrl).mul t).mul 2)

def QuadraticBezier3.evaluate_derivative {K : Type} [CommRing K]
    (c : QuadraticBezier3 K) (t : K) : Vec3 K :=
  (((c.ctrl.sub c.start).mul (1 - t)).mul 2).add (((c.end'.sub c.ctrl).mul t).mul 2)

/-- `CubicBezier::evaluate_derivative`:
`(ctrl0-start)*(l-t)*(l-t)*n + (ctrl1-ctrl0)*two*(l-t)*t*n + (end-ctrl1)*t*t*n`
with `n = 3`, `two = 2`. -/
def CubicBezier2.evaluate_derivative {K : Type} [CommRing K]
    (c : CubicBezier2 K) (t : K) : Vec2 K :=
  (((((c.ctrl0.sub c.start).mul (1 - t)).mul (1 - t)).mul 3).add
    (((((c.ctrl1.sub c.ctrl0).mul 2).mul (1 - t)).mul t).mul 3)).add
    ((((c.end'.sub c.ctrl1).mul t).mul t).mul 3)

def CubicBezier3.evaluate_derivative {K : Type} [CommRing K]
    (c : CubicBezier3 K) (t : K) : Vec3 K :=
  (((((c.ctrl0.sub c.start).mul (1 - t)).mul (1 - t)).mul 3).add
    (((((c.ctrl1.sub c.ctrl0).mul 2).mul (1 - t)).mul t).mul 3)).add
    ((((c.end'.sub c.ctrl1).mul t).mul t).mul 3)

/-- `QuadraticBezier::from_line_segment`: `start = line.a, ctrl = line.a,
end = line.b`. -/
def QuadraticBezier2.from_line_segment {K : Type} (line : LineSegment2 K) :
    QuadraticBezier2 K :=
  ⟨line.a, line.a, line.b⟩

def QuadraticBezier3.from_line_segment {K : Type} (line : LineSegment3 K) :
    QuadraticBezier3 K :=
  ⟨line.a, line.a, line.b⟩

/-- `CubicBezier::from_line_segment`: `start = line.a, ctrl0 = line.a,
ctrl1 = line.b, end = line.b`. -/
def CubicBezier2.from_line_segment {K : Type} (line : LineSegment2 K) :
    CubicBezier2 K :=
  ⟨line.a, line.a, line.b, line.b⟩

def CubicBezier3.from_line_segment {K : Type} (line : LineSegment3 K) :
    CubicBezier3 K :=
  ⟨line.a, line.a, line.b, line.b⟩

/-- `QuadraticBezier::split`: both halves written exactly as in the source. -/
def QuadraticBezier2.split {K : Type} [CommRing K] (c : QuadraticBezier2 K)
    (t : K) : QuadraticBezier2 K × QuadraticBezier2 K :=
  (⟨c.start,
    (c.ctrl.mul t).sub (c.start.mul (t - 1)),
    (((c.end'.mul t).mul t).sub (((c.ctrl.mul 2).mul t).mul (t - 1))).add
      ((c.start.mul (t - 1)).mul (t - 1))⟩,
   ⟨(((c.end'.mul t).mul t).sub (((c.ctrl.mul 2).mul t).mul (t - 1))).add
      ((c.start.mul (t - 1)).mul (t - 1)),
    (c.end'.mul t).sub (c.ctrl.mul (t - 1)),
    c.end'⟩)

def QuadraticBezier3.split {K : Type} [CommRing K] (c : QuadraticBezier3 K)
    (t : K) : QuadraticBezier3 K × QuadraticBezier3 K :=
  (⟨c.start,
    (c.ctrl.mul t).sub (c.start.mul (t - 1)),
    (((c.end'.mul t).mul t).sub (((c.ctrl.mul 2).mul t).mul (t - 1))).add
      ((c.start.mul (t - 1)).mul (t - 1))⟩,
   ⟨(((c.end'.mul t).mul t).sub (((c.ctrl.mul 2).mul t).mul (t - 1))).add
      ((c.start.mul (t - 1)).mul (t - 1)),
    (c.end'.mul t).sub (c.ctrl.mul (t - 1)),
    c.end'⟩)

/-- `CubicBezier::split`: both halves written exactly as in the source. -/
def CubicBezier2.split {K : Type} [CommRing K] (c : CubicBezier2 K)
    (t : K) : CubicBezier2 K × CubicBezier2 K :=
  (⟨c.start,
    (c.ctrl0.mul t).sub (c.start.mul (t - 1)),
    (((c.ctrl1.mul t).mul t).sub (((c.ctrl0.mul 2).mul t).mul (t - 1))).add
      ((c.start.mul (t - 1)).mul (t - 1)),
    (((((c.end'.mul t).mul t).mul t).sub
        ((((c.ctrl1.mul 3).mul t).mul t).mul (t - 1))).add
      ((((c.ctrl0.mul 3).mul t).mul (t - 1)).mul (t - 1))).sub
      (((c.start.mul (t - 1)).mul (t - 1)).mul (t - 1))⟩,
   ⟨(((((c.end'.mul t).mul t).mul t).sub
        ((((c.ctrl1.mul 3).mul t).mul t).mul (t - 1))).add
      ((((c.ctrl0.mul 3).mul t).mul (t - 1)).mul (t - 1))).sub
      (((c.start.mul (t - 1)).mul (t - 1)).mul (t - 1)),
    (((c.end'.mul t).mul t).sub (((c.ctrl1.mul 2).mul t).mul (t - 1))).add
      ((c.ctrl0.mul (t - 1)).mul (t - 1)),
    (c.end'.mul t).sub (c.ctrl1.mul (t - 1)),
    c.end'⟩)

def CubicBezier3.split {K : Type} [CommRing K] (c : CubicBezier3 K)
    (t : K) : CubicBezier3 K × CubicBezier3 K :=
  (⟨c.start,
    (c.ctrl0.mul t).sub (c.start.mul (t - 1)),
    (((c.ctrl1.mul t).mul t).sub (((c.ctrl0.mul 2).mul t).mul (t - 1))).add
      ((c.start.mul (t - 1)).mul (t - 1)),
    (((((c.end'.mul t).mul t).mul t).sub
        ((((c.ctrl1.mul 3).mul t).mul t).mul (t - 1))).add
      ((((c.ctrl0.mul 3).mul t).mul (t - 1)).mul (t - 1))).sub
      (((c.start.mul (t - 1)).mul (t - 1)).mul (t - 1))⟩,
   ⟨(((((c.end'.mul t).mul t).mul t).sub
        ((((c.ctrl1.mul 3).mul t).mul t).mul (t - 1))).add
      ((((c.ctrl0.mul 3).mul t).mul (t - 1)).mul (t - 1))).sub
      (((c.start.mul (t - 1)).mul (t - 1)).mul (t - 1)),
    (((c.end'.mul t).mul t).sub (((c.ctrl1.mul 2).mul t).mul (t - 1))).add
      ((c.ctrl0.mul (t - 1)).mul (t - 1)),
    (c.end'.mul t).sub (c.ctrl1.mul (t - 1)),
    c.end'⟩)

/-- `transformed_by_mat3` for the 2D quadratic curve: applies the matrix to
every control point (the source maps over `into_vector()`). -/
def QuadraticBezier2.transformed_by_mat3 {K : Type} [CommRing K]
    (c : QuadraticBezier2 K) (m : Mat3 K) : QuadraticBezier2 K :=
  ⟨m.mulPoint2 c.start, m.mulPoint2 c.ctrl, m.mulPoint2 c.end'⟩

def CubicBezier2.transformed_by_mat3 {K : Type} [CommRing K]
    (c : CubicBezier2 K) (m : Mat3 K) : CubicBezier2 K :=
  ⟨m.mulPoint2 c.start, m.mulPoint2 c.ctrl0, m.mulPoint2 c.ctrl1, m.mulPoint2 c.end'⟩

/-- `transformed_by_mat4` for the 3D quadratic curve: applies `mul_point` to
every control point. -/
def QuadraticBezier3.transformed_by_mat4 {K : Type} [CommRing K]
    (c : QuadraticBezier3 K) (m : Mat4 K) : QuadraticBezier3 K :=
  ⟨m.mul_point c.start, m.mul_point c.ctrl, m.mul_point c.end'⟩

def CubicBezier3.transformed_by_mat4 {K : Type} [CommRing K]
    (c : CubicBezier3 K) (m : Mat4 K) : CubicBezier3 K :=
  ⟨m.mul_point c.start, m.mul_point c.ctrl0, m.mul_point c.ctrl1, m.mul_point c.end'⟩

/-- Modelled from the spec: magnitude is the square root of the squared
magnitude (the dot product of the vector with itself), spec section 6. -/
noncomputable def Vec2.magnitude (v : Vec2 ℝ) : ℝ :=
  Real.sqrt (v.x * v.x + v.y * v.y)

/-- Modelled from the spec: 3D magnitude. -/
noncomputable def Vec3.magnitude (v : Vec3 ℝ) : ℝ :=
  Real.sqrt (v.x * v.x + v.y * v.y + v.z * v.z)

/-- Modelled from the spec: normalization divides the vector by its magnitude
(spec section 6); exact-real stand-in for the floating-point division that the
source's `normalized()` performs unconditionally. -/
noncomputable def Vec2.normalized (v : Vec2 ℝ) : Vec2 ℝ :=
  ⟨v.x / v.magnitude, v.y / v.magnitude⟩

/-- `normalized_tangent`: `self.evaluate_derivative(t).normalized()`. -/
noncomputable def QuadraticBezier2.normalized_tangent (c : QuadraticBezier2 ℝ)
    (t : ℝ) : Vec2 ℝ :=
  (c.evaluate_derivative t).normalized

noncomputable def CubicBezier2.normalized_tangent (c : CubicBezier2 ℝ)
    (t : ℝ) : Vec2 ℝ :=
  (c.evaluate_derivative t).normalized

/-- The shared loop body of `length_by_discretization` (the source shares it
across the four curve shapes through the `bezier_impl_any` macro):
`for i in 1..step_count+2 { t = i/(step_count+1); length += (next-prev).magnitude() }`.
The `u32` bound `step_count+2` is modelled with explicit `% 2 ^ 32` wraparound;
the iteration list `[1, ..., bound-1]` is `List.range' 1 (bound - 1)`.
The conversions of `i` and `step_count` into the scalar type happen without
wraparound, exactly as `T::from(...)` does. -/
noncomputable def bezierLengthFold {P : Type} (sub : P → P → P) (mag : P → ℝ)
    (f : ℝ → P) (step_count : ℕ) : ℝ :=
  ((List.range' 1 ((step_count + 2) % 2 ^ 32 - 1)).foldl
    (fun (acc : ℝ × P) (i : ℕ) =>
      (acc.1 + mag (sub (f ((i : ℝ) / ((step_count : ℝ) + 1))) acc.2),
       f ((i : ℝ) / ((step_count : ℝ) + 1))))
    ((0 : ℝ), f 0)).1

/-- `length_by_discretization` for the 2D quadratic curve. -/
noncomputable def QuadraticBezier2.length_by_discretization
    (c : QuadraticBezier2 ℝ) (step_count : ℕ) : ℝ :=
  bezierLengthFold Vec2.sub Vec2.magnitude c.evaluate step_count

noncomputable def QuadraticBezier3.length_by_discretization
    (c : QuadraticBezier3 ℝ) (step_count : ℕ) : ℝ :=
  bezierLengthFold Vec3.sub Vec3.magnitude c.evaluate step_count

noncomputable def CubicBezier2.length_by_discretization
    (c : CubicBezier2 ℝ) (step_count : ℕ) : ℝ :=
  bezierLengthFold Vec2.sub Vec2.magnitude c.evaluate step_count

noncomputable def CubicBezier3.length_by_discretization
    (c : CubicBezier3 ℝ) (step_count : ℕ) : ℝ :=
  bezierLengthFold Vec3.sub Vec3.magnitude c.evaluate step_count

/-- A quadratic Bézier curve is `B(t) = a*t^2 + b*t + start` with
`a = start - 2*ctrl + end` and `b = 2*(ctrl - start)`.  When `a` and `b` are
linearly independent (nonzero 2D cross product), `B` is an injective
parameterization of an arc of a nondegenerate parabola, which is a convex arc
(the boundary of a convex region in suitable coordinates).  This is the
sufficient convexity condition used to test the length-monotonicity claim. -/
def QuadraticBezier2.isConvexParabolaArc (c : QuadraticBezier2 ℝ) : Prop :=
  ((c.start.sub (c.ctrl.mul 2)).add c.end').x * ((c.ctrl.sub c.start).mul 2).y -
    ((c.start.sub (c.ctrl.mul 2)).add c.end').y * ((c.ctrl.sub c.start).mul 2).x ≠ 0

/-- The mutable state of the `binary_search_point` refinement loop:
current parameter `t`, current best point `pt`, its squared distance `d` to the
query point, and the half-interval `h`. -/
structure BSearchState where
  t : ℚ
  pt : Vec2 ℚ
  d : ℚ
  h : ℚ
  deriving DecidableEq

/-- One execution of the `while h >= epsilon` body of `binary_search_point`
(exact rational arithmetic): probe `t-h` and `t+h`; if either squared distance
strictly improves, adopt the smaller-distance probe and keep `h`; otherwise
halve `h`. -/
def QuadraticBezier2.refine_step (c : QuadraticBezier2 ℚ) (p : Vec2 ℚ)
    (s : BSearchState) : BSearchState :=
  let p1 := c.evaluate (s.t - s.h)
  let p2 := c.evaluate (s.t + s.h)
  let d1 := p.distance_squared p1
  let d2 := p.distance_squared p2
  if d1 < s.d ∨ d2 < s.d then
    if d1 < d2 then ⟨s.t - s.h, p1, d1, s.h⟩ else ⟨s.t + s.h, p2, d2, s.h⟩
  else ⟨s.t, s.pt, s.d, s.h / 2⟩

/-- The refinement loop of `binary_search_point`, with explicit fuel: `none`
means the loop has not reached `h < epsilon` within `fuel` iterations. -/
def QuadraticBezier2.refine_loop (c : QuadraticBezier2 ℚ) (p : Vec2 ℚ) (ε : ℚ) :
    ℕ → BSearchState → Option (ℚ × Vec2 ℚ)
  | 0, s => if s.h < ε then some (s.t, s.pt) else none
  | n + 1, s =>
      if s.h < ε then some (s.t, s.pt)
      else QuadraticBezier2.refine_loop c p ε n (c.refine_step p s)

/-- The coarse phase of `binary_search_point`: fold the iterator, replacing the
best candidate whenever a sample is strictly closer to `p`. -/
def coarseFold (p : Vec2 ℚ) (coarse : List (ℚ × Vec2 ℚ))
    (init : ℚ × Vec2 ℚ × ℚ) : ℚ × Vec2 ℚ × ℚ :=
  coarse.foldl
    (fun acc tp =>
      if tp.2.distance_squared p < acc.2.2 then (tp.1, tp.2, tp.2.distance_squared p)
      else acc)
    init

/-- `binary_search_point`, with the initial candidate `(t, pt, d) =
(1, self.end, distance_squared(end, p))` exactly as in the source, and fuel for
the refinement loop. -/
def QuadraticBezier2.binary_search_point (c : QuadraticBezier2 ℚ) (p : Vec2 ℚ)
    (coarse : List (ℚ × Vec2 ℚ)) (half_interval ε : ℚ) (fuel : ℕ) :
    Option (ℚ × Vec2 ℚ) :=
  let best := coarseFold p coarse (1, c.end', c.end'.distance_squared p)
  c.refine_loop p ε fuel ⟨best.1, best.2.1, best.2.2, half_interval⟩

/-- The coarse iterator of `binary_search_point_easy`:
`(0..(steps+1)).map(|i| (i/steps, evaluate(i/steps)))`, where `steps: u16`, so
the range bound `steps + 1` is `u16` arithmetic, modelled with explicit
`% 2 ^ 16` wraparound (at `steps = 65535` the range is empty); the conversions
`T::from(i)` and `T::from(steps)` inside the samples are plain value
conversions without wraparound. -/
def QuadraticBezier2.coarse_list (c : QuadraticBezier2 ℚ) (steps : ℕ) :
    List (ℚ × Vec2 ℚ) :=
  (List.range ((steps + 1) % 2 ^ 16)).map
    (fun (i : ℕ) => ((i : ℚ) / (steps : ℚ), c.evaluate ((i : ℚ) / (steps : ℚ))))

/-- `binary_search_point_easy`: coarse grid of `steps+1` samples and
`half_interval = (steps + steps).recip()`. -/
def QuadraticBezier2.binary_search_point_easy (c : QuadraticBezier2 ℚ)
    (p : Vec2 ℚ) (steps : ℕ) (ε : ℚ) (fuel : ℕ) : Option (ℚ × Vec2 ℚ) :=
  c.binary_search_point p (c.coarse_list steps) ((steps : ℚ) + (steps : ℚ))⁻¹ ε fuel

/-- Modelled from the spec (section 4.4, coarse phase wording): walk the sample
list keeping the minimum squared distance, starting from the endpoint candidate;
written as explicit recursion rather than the source's fold. -/
def specCoarseBest (p : Vec2 ℚ) :
    List (ℚ × Vec2 ℚ) → (ℚ × Vec2 ℚ × ℚ) → ℚ × Vec2 ℚ × ℚ
  | [], best => best
  | tp :: rest, best =>
      specCoarseBest p rest
        (if tp.2.distance_squared p < best.2.2 then (tp.1, tp.2, tp.2.distance_squared p)
         else best)

/-- Modelled from the spec (section 4.4, refinement phase wording): probe `t-h`
and `t+h`; if either strictly improves the best squared distance (that is, the
smaller of the two probe distances beats it), adopt the smaller-distance probe
and retry at the same `h`; if neither improves, halve `h`; terminate when
`h < epsilon`. -/
def specRefine (c : QuadraticBezier2 ℚ) (p : Vec2 ℚ) (ε : ℚ) :
    ℕ → ℚ → Vec2 ℚ → ℚ → ℚ → Option (ℚ × Vec2 ℚ)
  | 0, t, pt, _, h => if h < ε then some (t, pt) else none
  | fuel + 1, t, pt, d, h =>
      if h < ε then some (t, pt)
      else
        let pl := c.evaluate (t - h)
        let pr := c.evaluate (t + h)
        let dl := p.distance_squared pl
        let dr := p.distance_squared pr
        if min dl dr < d then
          if dl < dr then specRefine c p ε fuel (t - h) pl dl h
          else specRefine c p ε fuel (t + h) pr dr h
        else specRefine c p ε fuel t pt d (h / 2)

/-- Modelled from the spec (section 4.4): the full projection search as the
spec words it, with coarse grid `i/steps` for `i = 0..steps`, endpoint initial
candidate `(1, end)`, and refinement starting at `h = 1/(2*steps)`. -/
def specProjectPoint (c : QuadraticBezier2 ℚ) (p : Vec2 ℚ) (steps : ℕ) (ε : ℚ)
    (fuel : ℕ) : Option (ℚ × Vec2 ℚ) :=
  let grid := (List.range (steps + 1)).map
    (fun (i : ℕ) => ((i : ℚ) / (steps : ℚ), c.evaluate ((i : ℚ) / (steps : ℚ))))
  let best := specCoarseBest p grid (1, c.end', c.end'.distance_squared p)
  specRefine c p ε fuel best.1 best.2.1 best.2.2 (1 / (2 * (steps : ℚ)))

/-- The squared distance from the query point `p` to the curve point at
parameter `t`, written in the argument order the refinement loop uses. -/
def quadDistSq (c : QuadraticBezier2 ℚ) (p : Vec2 ℚ) (t : ℚ) : ℚ :=
  p.distance_squared (c.evaluate t)

-- THEOREMS

/-- C1 counterexample: the quadratic curve built by `from_line_segment` from the
segment (0,0)-(1,0) does not evaluate at t = 1/2 to the linear interpolation
a + (b-a)/2 = (1/2, 0); it evaluates to (1/4, 0). -/
theorem c1_counterexample :
    (QuadraticBezier2.from_line_segment (K := ℚ) ⟨⟨0, 0⟩, ⟨1, 0⟩⟩).evaluate (1/2) ≠
      Vec2.add ⟨0, 0⟩ ((Vec2.sub ⟨1, 0⟩ ⟨0, 0⟩).mul (1/2)) := by
  simp only [QuadraticBezier2.from_line_segment, QuadraticBezier2.evaluate,
    Vec2.add, Vec2.sub, Vec2.mul, ne_eq, Vec2.mk.injEq]
  norm_num

/-- C1 (amended): `from_line_segment` collapses the control points onto the
segment endpoints, so the resulting curve evaluates at t to
`a + (b-a) * t^2` (quadratic form) and `a + (b-a) * (3t^2 - 2t^3)` (cubic
form): it traces the segment from a to b, agreeing with linear interpolation at
t = 0 and t = 1, but with a non-linear reparameterization rather than equalling
`a + (b-a)*t` at every t. -/
theorem c1_amended {K : Type} [CommRing K] :
    (∀ (s : LineSegment2 K) (t : K),
      (QuadraticBezier2.from_line_segment s).evaluate t =
        s.a.add ((s.b.sub s.a).mul (t * t))) ∧
    (∀ (s : LineSegment2 K) (t : K),
      (CubicBezier2.from_line_segment s).evaluate t =
        s.a.add ((s.b.sub s.a).mul (3 * (t * t) - 2 * (t * t * t)))) ∧
    (∀ (s : LineSegment3 K) (t : K),
      (QuadraticBezier3.from_line_segment s).evaluate t =
        s.a.add ((s.b.sub s.a).mul (t * t))) ∧
    (∀ (s : LineSegment3 K) (t : K),
      (CubicBezier3.from_line_segment s).evaluate t =
        s.a.add ((s.b.sub s.a).mul (3 * (t * t) - 2 * (t * t * t)))) := by
  refine ⟨fun s t => ?_, fun s t => ?_, fun s t => ?_, fun s t => ?_⟩ <;>
    simp only [QuadraticBezier2.from_line_segment, QuadraticBezier2.evaluate,
      CubicBezier2.from_line_segment, CubicBezier2.evaluate,
      QuadraticBezier3.from_line_segment, QuadraticBezier3.evaluate,
      CubicBezier3.from_line_segment, CubicBezier3.evaluate,
      Vec2.add, Vec2.sub, Vec2.mul, Vec3.add, Vec3.sub, Vec3.mul,
      Vec2.mk.injEq, Vec3.mk.injEq] <;>
    constructorm* _ ∧ _ <;> ring

/-- C4: for every curve (quadratic or cubic, 2D or 3D) and every t,
`split` produces two halves with `evaluate(first, 1) = evaluate(second, 0) =
evaluate(curve, t)`, and the shared point (first's end and second's start) is
given by the identical formula in both halves (here literally the same
expression, so the equality is definitional). -/
theorem c4_split_shared_point {K : Type} [CommRing K] :
    (∀ (c : QuadraticBezier2 K) (t : K),
      (c.split t).1.evaluate 1 = c.evaluate t ∧
      (c.split t).2.evaluate 0 = c.evaluate t ∧
      (c.split t).1.end' = (c.split t).2.start) ∧
    (∀ (c : QuadraticBezier3 K) (t : K),
      (c.split t).1.evaluate 1 = c.evaluate t ∧
      (c.split t).2.evaluate 0 = c.evaluate t ∧
      (c.split t).1.end' = (c.split t).2.start) ∧
    (∀ (c : CubicBezier2 K) (t : K),
      (c.split t).1.evaluate 1 = c.evaluate t ∧
      (c.split t).2.evaluate 0 = c.evaluate t ∧
      (c.split t).1.end' = (c.split t).2.start) ∧
    (∀ (c : CubicBezier3 K) (t : K),
      (c.split t).1.evaluate 1 = c.evaluate t ∧
      (c.split t).2.evaluate 0 = c.evaluate t ∧
      (c.split t).1.end' = (c.split t).2.start) := by
  refine ⟨fun c t => ⟨?_, ?_, ?_⟩, fun c t => ⟨?_, ?_, ?_⟩,
    fun c t => ⟨?_, ?_, ?_⟩, fun c t => ⟨?_, ?_, ?_⟩⟩ <;>
    simp only [QuadraticBezier2.split, QuadraticBezier2.evaluate,
      QuadraticBezier3.split, QuadraticBezier3.evaluate,
      CubicBezier2.split, CubicBezier2.evaluate,
      CubicBezier3.split, CubicBezier3.evaluate,
      Vec2.add, Vec2.sub, Vec2.mul, Vec3.add, Vec3.sub, Vec3.mul,
      Vec2.mk.injEq, Vec3.mk.injEq] <;>
    constructorm* _ ∧ _ <;> ring

/-- C5: split round-trip.  For every curve, every t (also outside [0,1]) and
every s, the first half of `split(curve, t)` evaluated at s equals the original
curve evaluated at `t*s`, and the second half evaluated at s equals the
original evaluated at `t + (1-t)*s`: the halves reparameterize the original
over [0,t] and [t,1]. -/
theorem c5_split_reparam {K : Type} [CommRing K] :
    (∀ (c : QuadraticBezier2 K) (t s : K),
      (c.split t).1.evaluate s = c.evaluate (t * s) ∧
      (c.split t).2.evaluate s = c.evaluate (t + (1 - t) * s)) ∧
    (∀ (c : QuadraticBezier3 K) (t s : K),
      (c.split t).1.evaluate s = c.evaluate (t * s) ∧
      (c.split t).2.evaluate s = c.evaluate (t + (1 - t) * s)) ∧
    (∀ (c : CubicBezier2 K) (t s : K),
      (c.split t).1.evaluate s = c.evaluate (t * s) ∧
      (c.split t).2.evaluate s = c.evaluate (t + (1 - t) * s)) ∧
    (∀ (c : CubicBezier3 K) (t s : K),
      (c.split t).1.evaluate s = c.evaluate (t * s) ∧
      (c.split t).2.evaluate s = c.evaluate (t + (1 - t) * s)) := by
  refine ⟨fun c t s => ⟨?_, ?_⟩, fun c t s => ⟨?_, ?_⟩,
    fun c t s => ⟨?_, ?_⟩, fun c t s => ⟨?_, ?_⟩⟩ <;>
    simp only [QuadraticBezier2.split, QuadraticBezier2.evaluate,
      QuadraticBezier3.split, QuadraticBezier3.evaluate,
      CubicBezier2.split, CubicBezier2.evaluate,
      CubicBezier3.split, CubicBezier3.evaluate,
      Vec2.add, Vec2.sub, Vec2.mul, Vec3.add, Vec3.sub, Vec3.mul,
      Vec2.mk.injEq, Vec3.mk.injEq] <;>
    constructorm* _ ∧ _ <;> ring

/-- C7: transforms commute with evaluation.  For every curve, matrix and t,
evaluating the transformed curve equals applying the matrix (in the same
homogeneous point convention) to the evaluation of the original curve; the
transformed curve has the same degree and point count by construction. -/
theorem c7_transform_commutes {K : Type} [CommRing K] :
    (∀ (c : QuadraticBezier2 K) (m : Mat3 K) (t : K),
      (c.transformed_by_mat3 m).evaluate t = m.mulPoint2 (c.evaluate t)) ∧
    (∀ (c : CubicBezier2 K) (m : Mat3 K) (t : K),
      (c.transformed_by_mat3 m).evaluate t = m.mulPoint2 (c.evaluate t)) ∧
    (∀ (c : QuadraticBezier3 K) (m : Mat4 K) (t : K),
      (c.transformed_by_mat4 m).evaluate t = m.mul_point (c.evaluate t)) ∧
    (∀ (c : CubicBezier3 K) (m : Mat4 K) (t : K),
      (c.transformed_by_mat4 m).evaluate t = m.mul_point (c.evaluate t)) := by
  refine ⟨fun c m t => ?_, fun c m t => ?_, fun c m t => ?_, fun c m t => ?_⟩ <;>
    simp only [QuadraticBezier2.transformed_by_mat3, QuadraticBezier2.evaluate,
      CubicBezier2.transformed_by_mat3, CubicBezier2.evaluate,
      QuadraticBezier3.transformed_by_mat4, QuadraticBezier3.evaluate,
      CubicBezier3.transformed_by_mat4, CubicBezier3.evaluate,
      Mat3.mulPoint2, Mat3.mulVec3, Mat4.mul_point, Mat4.mulVec4,
      Vec3.dot, Vec4.dot,
      Vec2.add, Vec2.sub, Vec2.mul, Vec3.add, Vec3.sub, Vec3.mul,
      Vec2.mk.injEq, Vec3.mk.injEq] <;>
    constructorm* _ ∧ _ <;> ring

/-- Helper: a vector of nonzero magnitude normalizes to a unit vector. -/
theorem vec2_normalized_magnitude (v : Vec2 ℝ) (h : v.magnitude ≠ 0) :
    v.normalized.magnitude = 1 := by
  have hs : (0 : ℝ) ≤ v.x * v.x + v.y * v.y :=
    add_nonneg (mul_self_nonneg _) (mul_self_nonneg _)
  have hmm : v.magnitude * v.magnitude = v.x * v.x + v.y * v.y :=
    Real.mul_self_sqrt hs
  have hs0 : v.x * v.x + v.y * v.y ≠ 0 := by
    intro h0
    exact h (by rw [Vec2.magnitude, h0, Real.sqrt_zero])
  rw [Vec2.normalized, Vec2.magnitude]
  simp only
  rw [div_mul_div_comm, div_mul_div_comm, div_add_div_same, hmm,
    div_self hs0, Real.sqrt_one]

/-- C2 counterexample: for the degenerate quadratic curve with all control
points at the origin, the derivative magnitude at t = 1/2 is zero, and
`normalized_tangent` silently returns the garbage point (0,0) (the exact-model
stand-in for the IEEE NaN that the unchecked division produces): its codomain
is the plain point type and no degenerate-direction failure is surfaced to the
caller, contradicting the claim. -/
theorem c2_counterexample :
    ((⟨⟨0, 0⟩, ⟨0, 0⟩, ⟨0, 0⟩⟩ : QuadraticBezier2 ℝ).evaluate_derivative
        (1/2)).magnitude = 0 ∧
    (⟨⟨0, 0⟩, ⟨0, 0⟩, ⟨0, 0⟩⟩ : QuadraticBezier2 ℝ).normalized_tangent (1/2) =
      ⟨0, 0⟩ := by
  constructor
  · simp [QuadraticBezier2.evaluate_derivative, Vec2.sub, Vec2.mul, Vec2.add,
      Vec2.magnitude]
  · simp [QuadraticBezier2.normalized_tangent, QuadraticBezier2.evaluate_derivative,
      Vec2.sub, Vec2.mul, Vec2.add, Vec2.normalized]

/-- C2 (amended): `normalized_tangent` unconditionally returns the derivative
divided by its magnitude; no degenerate-direction failure is surfaced.  When
the derivative magnitude is zero the caller silently receives a garbage value
(the zero vector under exact total division; NaN components under IEEE
arithmetic), and when the magnitude is nonzero the result is the derivative
divided by its magnitude, a unit vector. -/
theorem c2_amended :
    (∀ (c : QuadraticBezier2 ℝ) (t : ℝ),
      c.normalized_tangent t = (c.evaluate_derivative t).normalized ∧
      ((c.evaluate_derivative t).magnitude = 0 → c.normalized_tangent t = ⟨0, 0⟩) ∧
      ((c.evaluate_derivative t).magnitude ≠ 0 →
        (c.normalized_tangent t).magnitude = 1)) ∧
    (∀ (c : CubicBezier2 ℝ) (t : ℝ),
      c.normalized_tangent t = (c.evaluate_derivative t).normalized ∧
      ((c.evaluate_derivative t).magnitude = 0 → c.normalized_tangent t = ⟨0, 0⟩) ∧
      ((c.evaluate_derivative t).magnitude ≠ 0 →
        (c.normalized_tangent t).magnitude = 1)) := by
  constructor
  · intro c t
    refine ⟨rfl, fun h0 => ?_, fun h1 => vec2_normalized_magnitude _ h1⟩
    rw [QuadraticBezier2.normalized_tangent, Vec2.normalized, h0]
    simp
  · intro c t
    refine ⟨rfl, fun h0 => ?_, fun h1 => vec2_normalized_magnitude _ h1⟩
    rw [CubicBezier2.normalized_tangent, Vec2.normalized, h0]
    simp

/-- C2 witness: at the concrete quadratic curve (0,0)-(1,0)-(2,0) and t = 0 the
derivative magnitude is nonzero and the normalized tangent is a unit vector. -/
theorem c2_amended_witness :
    ((⟨⟨0, 0⟩, ⟨1, 0⟩, ⟨2, 0⟩⟩ : QuadraticBezier2 ℝ).evaluate_derivative
        0).magnitude ≠ 0 ∧
    ((⟨⟨0, 0⟩, ⟨1, 0⟩, ⟨2, 0⟩⟩ : QuadraticBezier2 ℝ).normalized_tangent
        0).magnitude = 1 := by
  have h : ((⟨⟨0, 0⟩, ⟨1, 0⟩, ⟨2, 0⟩⟩ : QuadraticBezier2 ℝ).evaluate_derivative
      0).magnitude ≠ 0 := by
    simp [QuadraticBezier2.evaluate_derivative, Vec2.sub, Vec2.mul, Vec2.add,
      Vec2.magnitude, Real.sqrt_ne_zero']
  exact ⟨h, (c2_amended.1 ⟨⟨0, 0⟩, ⟨1, 0⟩, ⟨2, 0⟩⟩ 0).2.2 h⟩

/-- C10: calling `length_by_discretization` with `step_count` equal to
`2^32 - 1` or `2^32 - 2` makes the `u32` loop bound `step_count + 2` wrap
around to 1 or 0, so the sampling loop body never executes and the function
returns 0 for every curve, even when start and end differ. -/
theorem c10_overflow :
    (∀ c : QuadraticBezier2 ℝ,
      c.length_by_discretization (2 ^ 32 - 1) = 0 ∧
      c.length_by_discretization (2 ^ 32 - 2) = 0) ∧
    (∀ c : QuadraticBezier3 ℝ,
      c.length_by_discretization (2 ^ 32 - 1) = 0 ∧
      c.length_by_discretization (2 ^ 32 - 2) = 0) ∧
    (∀ c : CubicBezier2 ℝ,
      c.length_by_discretization (2 ^ 32 - 1) = 0 ∧
      c.length_by_discretization (2 ^ 32 - 2) = 0) ∧
    (∀ c : CubicBezier3 ℝ,
      c.length_by_discretization (2 ^ 32 - 1) = 0 ∧
      c.length_by_discretization (2 ^ 32 - 2) = 0) := by
  have h1 : ((2 ^ 32 - 1 + 2) % 2 ^ 32 : ℕ) - 1 = 0 := by norm_num
  have h2 : ((2 ^ 32 - 2 + 2) % 2 ^ 32 : ℕ) - 1 = 0 := by norm_num
  refine ⟨fun c => ⟨?_, ?_⟩, fun c => ⟨?_, ?_⟩, fun c => ⟨?_, ?_⟩, fun c => ⟨?_, ?_⟩⟩ <;>
    simp [QuadraticBezier2.length_by_discretization,
      QuadraticBezier3.length_by_discretization,
      CubicBezier2.length_by_discretization,
      CubicBezier3.length_by_discretization,
      bezierLengthFold, h1, h2]

/-- Helper: the `length_by_discretization` fold computes the running polyline
length and the previous sample point. -/
theorem bezierLengthFold_state {P : Type} (sub : P → P → P) (mag : P → ℝ)
    (f : ℝ → P) (n : ℕ) :
    ∀ m : ℕ,
      (List.range' 1 m).foldl
        (fun (acc : ℝ × P) (i : ℕ) =>
          (acc.1 + mag (sub (f ((i : ℝ) / ((n : ℝ) + 1))) acc.2),
           f ((i : ℝ) / ((n : ℝ) + 1))))
        ((0 : ℝ), f 0) =
      (∑ i in Finset.range m,
        mag (sub (f ((1 + (i : ℝ)) / ((n : ℝ) + 1))) (f ((i : ℝ) / ((n : ℝ) + 1)))),
       f ((m : ℝ) / ((n : ℝ) + 1))) := by
  intro m
  induction m with
  | zero => simp
  | succ m ih =>
    rw [List.range'_concat, List.foldl_append, ih]
    simp only [List.foldl_cons, List.foldl_nil, Finset.sum_range_succ]
    have e1 : ((1 + 1 * m : ℕ) : ℝ) = 1 + (m : ℝ) := by push_cast; ring
    have e2 : ((m + 1 : ℕ) : ℝ) = 1 + (m : ℝ) := by push_cast; ring
    rw [e1, e2]

/-- Helper: without `u32` overflow the fold is the sum of the `n + 1`
consecutive chord lengths between the `n + 2` uniform samples. -/
theorem bezierLengthFold_eq_sum {P : Type} (sub : P → P → P) (mag : P → ℝ)
    (f : ℝ → P) (n : ℕ) (h : n + 2 < 2 ^ 32) :
    bezierLengthFold sub mag f n =
      ∑ i in Finset.range (n + 1),
        mag (sub (f ((1 + (i : ℝ)) / ((n : ℝ) + 1))) (f ((i : ℝ) / ((n : ℝ) + 1)))) := by
  rw [bezierLengthFold, Nat.mod_eq_of_lt h]
  have hb : n + 2 - 1 = n + 1 := by omega
  rw [hb, bezierLengthFold_state sub mag f n (n + 1)]

/-- Helper: the two-sample case is the single chord from `f 0` to `f 1`. -/
theorem bezierLengthFold_zero {P : Type} (sub : P → P → P) (mag : P → ℝ)
    (f : ℝ → P) :
    bezierLengthFold sub mag f 0 = mag (sub (f 1) (f 0)) := by
  have h : (0 : ℕ) + 2 < 2 ^ 32 := by norm_num
  rw [bezierLengthFold_eq_sum sub mag f 0 h]
  norm_num

/-- Helper: evaluation endpoints for the four curve shapes. -/
theorem vec2_ext {K : Type} (a b : Vec2 K) (hx : a.x = b.x) (hy : a.y = b.y) :
    a = b := by
  cases a
  cases b
  simp_all

theorem vec3_ext {K : Type} (a b : Vec3 K) (hx : a.x = b.x) (hy : a.y = b.y)
    (hz : a.z = b.z) : a = b := by
  cases a
  cases b
  simp_all

theorem evaluate_endpoints {K : Type} [CommRing K] :
    (∀ c : QuadraticBezier2 K, c.evaluate 0 = c.start ∧ c.evaluate 1 = c.end') ∧
    (∀ c : QuadraticBezier3 K, c.evaluate 0 = c.start ∧ c.evaluate 1 = c.end') ∧
    (∀ c : CubicBezier2 K, c.evaluate 0 = c.start ∧ c.evaluate 1 = c.end') ∧
    (∀ c : CubicBezier3 K, c.evaluate 0 = c.start ∧ c.evaluate 1 = c.end') := by
  refine ⟨fun c => ⟨vec2_ext _ _ ?_ ?_, vec2_ext _ _ ?_ ?_⟩,
    fun c => ⟨vec3_ext _ _ ?_ ?_ ?_, vec3_ext _ _ ?_ ?_ ?_⟩,
    fun c => ⟨vec2_ext _ _ ?_ ?_, vec2_ext _ _ ?_ ?_⟩,
    fun c => ⟨vec3_ext _ _ ?_ ?_ ?_, vec3_ext _ _ ?_ ?_ ?_⟩⟩ <;>
    simp only [QuadraticBezier2.evaluate, QuadraticBezier3.evaluate,
      CubicBezier2.evaluate, CubicBezier3.evaluate,
      Vec2.add, Vec2.sub, Vec2.mul, Vec3.add, Vec3.sub, Vec3.mul] <;>
    ring

/-- Helper: the magnitude of the difference of distinct 2D points is positive. -/
theorem vec2_magnitude_sub_pos (a b : Vec2 ℝ) (h : a ≠ b) :
    0 < (a.sub b).magnitude := by
  rw [Vec2.sub, Vec2.magnitude]
  apply Real.sqrt_pos.mpr
  rcases lt_or_eq_of_le
      (add_nonneg (mul_self_nonneg (a.x - b.x)) (mul_self_nonneg (a.y - b.y))) with hlt | heq
  · exact hlt
  · exfalso
    have hx : (a.x - b.x) * (a.x - b.x) = 0 ∧ (a.y - b.y) * (a.y - b.y) = 0 := by
      constructor <;> nlinarith [mul_self_nonneg (a.x - b.x), mul_self_nonneg (a.y - b.y)]
    apply h
    have hx0 : a.x = b.x := by
      have := mul_self_eq_zero.mp hx.1
      linarith
    have hy0 : a.y = b.y := by
      have := mul_self_eq_zero.mp hx.2
      linarith
    cases a
    cases b
    simp_all

/-- Helper: the magnitude of the difference of distinct 3D points is positive. -/
theorem vec3_magnitude_sub_pos (a b : Vec3 ℝ) (h : a ≠ b) :
    0 < (a.sub b).magnitude := by
  rw [Vec3.sub, Vec3.magnitude]
  apply Real.sqrt_pos.mpr
  rcases lt_or_eq_of_le
      (add_nonneg (add_nonneg (mul_self_nonneg (a.x - b.x)) (mul_self_nonneg (a.y - b.y)))
        (mul_self_nonneg (a.z - b.z))) with hlt | heq
  · exact hlt
  · exfalso
    have hx : (a.x - b.x) * (a.x - b.x) = 0 ∧ (a.y - b.y) * (a.y - b.y) = 0 ∧
        (a.z - b.z) * (a.z - b.z) = 0 := by
      refine ⟨?_, ?_, ?_⟩ <;>
        nlinarith [mul_self_nonneg (a.x - b.x), mul_self_nonneg (a.y - b.y),
          mul_self_nonneg (a.z - b.z)]
    apply h
    have hx0 : a.x = b.x := by have := mul_self_eq_zero.mp hx.1; linarith
    have hy0 : a.y = b.y := by have := mul_self_eq_zero.mp hx.2.1; linarith
    have hz0 : a.z = b.z := by have := mul_self_eq_zero.mp hx.2.2; linarith
    cases a
    cases b
    simp_all

/-- C8: without `u32` overflow (`step_count + 2 < 2^32`),
`length_by_discretization(curve, n)` is the sum, for `i = 1 .. n+1`, of the
Euclidean distances between `evaluate((i-1)/(n+1))` and `evaluate(i/(n+1))` --
the polyline through `n + 2` uniform samples of [0,1] including both endpoints
-- and for `step_count = 0` the result is positive whenever start and end
differ. -/
theorem c8_length_formula :
    (∀ (c : QuadraticBezier2 ℝ) (n : ℕ), n + 2 < 2 ^ 32 →
      c.length_by_discretization n =
        ∑ i in Finset.Icc 1 (n + 1),
          ((c.evaluate ((i : ℝ) / ((n : ℝ) + 1))).sub
            (c.evaluate (((i : ℝ) - 1) / ((n : ℝ) + 1)))).magnitude) ∧
    (∀ (c : QuadraticBezier3 ℝ) (n : ℕ), n + 2 < 2 ^ 32 →
      c.length_by_discretization n =
        ∑ i in Finset.Icc 1 (n + 1),
          ((c.evaluate ((i : ℝ) / ((n : ℝ) + 1))).sub
            (c.evaluate (((i : ℝ) - 1) / ((n : ℝ) + 1)))).magnitude) ∧
    (∀ (c : CubicBezier2 ℝ) (n : ℕ), n + 2 < 2 ^ 32 →
      c.length_by_discretization n =
        ∑ i in Finset.Icc 1 (n + 1),
          ((c.evaluate ((i : ℝ) / ((n : ℝ) + 1))).sub
            (c.evaluate (((i : ℝ) - 1) / ((n : ℝ) + 1)))).magnitude) ∧
    (∀ (c : CubicBezier3 ℝ) (n : ℕ), n + 2 < 2 ^ 32 →
      c.length_by_discretization n =
        ∑ i in Finset.Icc 1 (n + 1),
          ((c.evaluate ((i : ℝ) / ((n : ℝ) + 1))).sub
            (c.evaluate (((i : ℝ) - 1) / ((n : ℝ) + 1)))).magnitude) ∧
    (∀ c : QuadraticBezier2 ℝ, c.start ≠ c.end' →
      0 < c.length_by_discretization 0) ∧
    (∀ c : QuadraticBezier3 ℝ, c.start ≠ c.end' →
      0 < c.length_by_discretization 0) ∧
    (∀ c : CubicBezier2 ℝ, c.start ≠ c.end' →
      0 < c.length_by_discretization 0) ∧
    (∀ c : CubicBezier3 ℝ, c.start ≠ c.end' →
      0 < c.length_by_discretization 0) := by
  have key : ∀ (P : Type) (sub : P → P → P) (mag : P → ℝ) (f : ℝ → P) (n : ℕ),
      n + 2 < 2 ^ 32 →
      bezierLengthFold sub mag f n =
        ∑ i in Finset.Icc 1 (n + 1),
          mag (sub (f ((i : ℝ) / ((n : ℝ) + 1))) (f (((i : ℝ) - 1) / ((n : ℝ) + 1)))) := by
    intro P sub mag f n h
    rw [bezierLengthFold_eq_sum sub mag f n h, ← Nat.Ico_succ_right,
      Finset.sum_Ico_eq_sum_range]
    simp only [Nat.succ_sub_one]
    refine Finset.sum_congr rfl fun i _ => ?_
    have e1 : ((1 + i : ℕ) : ℝ) = 1 + (i : ℝ) := by push_cast; ring
    have e2 : 1 + (i : ℝ) - 1 = (i : ℝ) := by ring
    rw [e1, e2]
  have pos : ∀ (P : Type) (sub : P → P → P) (mag : P → ℝ) (f : ℝ → P),
      0 < mag (sub (f 1) (f 0)) → 0 < bezierLengthFold sub mag f 0 := by
    intro P sub mag f h
    rw [bezierLengthFold_zero]
    exact h
  refine ⟨fun c n h => key _ _ _ _ n h, fun c n h => key _ _ _ _ n h,
    fun c n h => key _ _ _ _ n h, fun c n h => key _ _ _ _ n h,
    fun c hne => ?_, fun c hne => ?_, fun c hne => ?_, fun c hne => ?_⟩
  · refine pos _ _ _ _ ?_
    rw [(evaluate_endpoints.1 c).1, (evaluate_endpoints.1 c).2]
    exact vec2_magnitude_sub_pos _ _ (Ne.symm hne)
  · refine pos _ _ _ _ ?_
    rw [(evaluate_endpoints.2.1 c).1, (evaluate_endpoints.2.1 c).2]
    exact vec3_magnitude_sub_pos _ _ (Ne.symm hne)
  · refine pos _ _ _ _ ?_
    rw [(evaluate_endpoints.2.2.1 c).1, (evaluate_endpoints.2.2.1 c).2]
    exact vec2_magnitude_sub_pos _ _ (Ne.symm hne)
  · refine pos _ _ _ _ ?_
    rw [(evaluate_endpoints.2.2.2 c).1, (evaluate_endpoints.2.2.2 c).2]
    exact vec3_magnitude_sub_pos _ _ (Ne.symm hne)

/-- C8 witness: at the concrete quadratic curve (0,0)-(0,0)-(1,0) with
`step_count = 0`, start differs from end and the discretized length is
positive. -/
theorem c8_length_formula_witness :
    (⟨⟨0, 0⟩, ⟨0, 0⟩, ⟨1, 0⟩⟩ : QuadraticBezier2 ℝ).start ≠
      (⟨⟨0, 0⟩, ⟨0, 0⟩, ⟨1, 0⟩⟩ : QuadraticBezier2 ℝ).end' ∧
    0 < (⟨⟨0, 0⟩, ⟨0, 0⟩, ⟨1, 0⟩⟩ : QuadraticBezier2 ℝ).length_by_discretization 0 := by
  have hne : (⟨⟨0, 0⟩, ⟨0, 0⟩, ⟨1, 0⟩⟩ : QuadraticBezier2 ℝ).start ≠
      (⟨⟨0, 0⟩, ⟨0, 0⟩, ⟨1, 0⟩⟩ : QuadraticBezier2 ℝ).end' :=
    fun h => zero_ne_one (congrArg Vec2.x h)
  exact ⟨hne, c8_length_formula.2.2.2.2.1 _ hne⟩

/-- Helper: Minkowski inequality for the 2D Euclidean magnitude. -/
theorem vec2_magnitude_add_le (u v : Vec2 ℝ) :
    (u.add v).magnitude ≤ u.magnitude + v.magnitude := by
  have h1 : (0 : ℝ) ≤ u.x * u.x + u.y * u.y :=
    add_nonneg (mul_self_nonneg _) (mul_self_nonneg _)
  have h2 : (0 : ℝ) ≤ v.x * v.x + v.y * v.y :=
    add_nonneg (mul_self_nonneg _) (mul_self_nonneg _)
  have cs : (u.x * v.x + u.y * v.y) ^ 2 ≤
      (u.x * u.x + u.y * u.y) * (v.x * v.x + v.y * v.y) := by
    nlinarith [sq_nonneg (u.x * v.y - u.y * v.x)]
  have hdot : u.x * v.x + u.y * v.y ≤
      Real.sqrt (u.x * u.x + u.y * u.y) * Real.sqrt (v.x * v.x + v.y * v.y) := by
    have habs : |u.x * v.x + u.y * v.y| ≤
        Real.sqrt ((u.x * u.x + u.y * u.y) * (v.x * v.x + v.y * v.y)) := by
      rw [← Real.sqrt_sq_eq_abs]
      exact Real.sqrt_le_sqrt cs
    rw [Real.sqrt_mul h1] at habs
    exact le_trans (le_abs_self _) habs
  rw [Vec2.add, Vec2.magnitude, Vec2.magnitude, Vec2.magnitude]
  simp only
  have e : (Real.sqrt (u.x * u.x + u.y * u.y) + Real.sqrt (v.x * v.x + v.y * v.y)) ^ 2 =
      (u.x * u.x + u.y * u.y) + (v.x * v.x + v.y * v.y) +
        2 * (Real.sqrt (u.x * u.x + u.y * u.y) * Real.sqrt (v.x * v.x + v.y * v.y)) := by
    rw [add_sq, Real.sq_sqrt h1, Real.sq_sqrt h2]
    ring
  have hin : (u.x + v.x) * (u.x + v.x) + (u.y + v.y) * (u.y + v.y) ≤
      (Real.sqrt (u.x * u.x + u.y * u.y) + Real.sqrt (v.x * v.x + v.y * v.y)) ^ 2 := by
    rw [e]
    nlinarith [hdot]
  calc Real.sqrt ((u.x + v.x) * (u.x + v.x) + (u.y + v.y) * (u.y + v.y)) ≤
      Real.sqrt ((Real.sqrt (u.x * u.x + u.y * u.y) +
        Real.sqrt (v.x * v.x + v.y * v.y)) ^ 2) := Real.sqrt_le_sqrt hin
    _ = Real.sqrt (u.x * u.x + u.y * u.y) + Real.sqrt (v.x * v.x + v.y * v.y) :=
      Real.sqrt_sq (by positivity)

/-- Helper: Minkowski inequality for the 3D Euclidean magnitude. -/
theorem vec3_magnitude_add_le (u v : Vec3 ℝ) :
    (u.add v).magnitude ≤ u.magnitude + v.magnitude := by
  have h1 : (0 : ℝ) ≤ u.x * u.x + u.y * u.y + u.z * u.z :=
    add_nonneg (add_nonneg (mul_self_nonneg _) (mul_self_nonneg _)) (mul_self_nonneg _)
  have h2 : (0 : ℝ) ≤ v.x * v.x + v.y * v.y + v.z * v.z :=
    add_nonneg (add_nonneg (mul_self_nonneg _) (mul_self_nonneg _)) (mul_self_nonneg _)
  have cs : (u.x * v.x + u.y * v.y + u.z * v.z) ^ 2 ≤
      (u.x * u.x + u.y * u.y + u.z * u.z) * (v.x * v.x + v.y * v.y + v.z * v.z) := by
    nlinarith [sq_nonneg (u.x * v.y - u.y * v.x), sq_nonneg (u.x * v.z - u.z * v.x),
      sq_nonneg (u.y * v.z - u.z * v.y)]
  have hdot : u.x * v.x + u.y * v.y + u.z * v.z ≤
      Real.sqrt (u.x * u.x + u.y * u.y + u.z * u.z) *
        Real.sqrt (v.x * v.x + v.y * v.y + v.z * v.z) := by
    have habs : |u.x * v.x + u.y * v.y + u.z * v.z| ≤
        Real.sqrt ((u.x * u.x + u.y * u.y + u.z * u.z) *
          (v.x * v.x + v.y * v.y + v.z * v.z)) := by
      rw [← Real.sqrt_sq_eq_abs]
      exact Real.sqrt_le_sqrt cs
    rw [Real.sqrt_mul h1] at habs
    exact le_trans (le_abs_self _) habs
  rw [Vec3.add, Vec3.magnitude, Vec3.magnitude, Vec3.magnitude]
  simp only
  have e : (Real.sqrt (u.x * u.x + u.y * u.y + u.z * u.z) +
      Real.sqrt (v.x * v.x + v.y * v.y + v.z * v.z)) ^ 2 =
      (u.x * u.x + u.y * u.y + u.z * u.z) + (v.x * v.x + v.y * v.y + v.z * v.z) +
        2 * (Real.sqrt (u.x * u.x + u.y * u.y + u.z * u.z) *
          Real.sqrt (v.x * v.x + v.y * v.y + v.z * v.z)) := by
    rw [add_sq, Real.sq_sqrt h1, Real.sq_sqrt h2]
    ring
  have hin : (u.x + v.x) * (u.x + v.x) + (u.y + v.y) * (u.y + v.y) +
      (u.z + v.z) * (u.z + v.z) ≤
      (Real.sqrt (u.x * u.x + u.y * u.y + u.z * u.z) +
        Real.sqrt (v.x * v.x + v.y * v.y + v.z * v.z)) ^ 2 := by
    rw [e]
    nlinarith [hdot]
  calc Real.sqrt ((u.x + v.x) * (u.x + v.x) + (u.y + v.y) * (u.y + v.y) +
      (u.z + v.z) * (u.z + v.z)) ≤
      Real.sqrt ((Real.sqrt (u.x * u.x + u.y * u.y + u.z * u.z) +
        Real.sqrt (v.x * v.x + v.y * v.y + v.z * v.z)) ^ 2) := Real.sqrt_le_sqrt hin
    _ = Real.sqrt (u.x * u.x + u.y * u.y + u.z * u.z) +
        Real.sqrt (v.x * v.x + v.y * v.y + v.z * v.z) :=
      Real.sqrt_sq (by positivity)

/-- Helper: triangle inequality for chord magnitudes of 2D points. -/
theorem vec2_magnitude_sub_triangle (a b c : Vec2 ℝ) :
    (a.sub c).magnitude ≤ (a.sub b).magnitude + (b.sub c).magnitude := by
  have e : a.sub c = (a.sub b).add (b.sub c) := by
    refine vec2_ext _ _ ?_ ?_ <;> simp only [Vec2.sub, Vec2.add] <;> ring
  rw [e]
  exact vec2_magnitude_add_le _ _

/-- Helper: triangle inequality for chord magnitudes of 3D points. -/
theorem vec3_magnitude_sub_triangle (a b c : Vec3 ℝ) :
    (a.sub c).magnitude ≤ (a.sub b).magnitude + (b.sub c).magnitude := by
  have e : a.sub c = (a.sub b).add (b.sub c) := by
    refine vec3_ext _ _ ?_ ?_ ?_ <;> simp only [Vec3.sub, Vec3.add] <;> ring
  rw [e]
  exact vec3_magnitude_add_le _ _

/-- Helper: a chord is at most the polyline through intermediate points. -/
theorem polyline_chord_le {P : Type} (sub : P → P → P) (mag : P → ℝ)
    (hzero : ∀ x, mag (sub x x) = 0)
    (htri : ∀ a b c, mag (sub a c) ≤ mag (sub a b) + mag (sub b c))
    (g : ℕ → P) (a : ℕ) :
    ∀ m : ℕ, mag (sub (g (a + m)) (g a)) ≤
      ∑ q in Finset.range m, mag (sub (g (a + q + 1)) (g (a + q))) := by
  intro m
  induction m with
  | zero => simp [hzero]
  | succ m ih =>
    have step : mag (sub (g (a + (m + 1))) (g a)) ≤
        mag (sub (g (a + (m + 1))) (g (a + m))) + mag (sub (g (a + m)) (g a)) :=
      htri _ _ _
    rw [Finset.sum_range_succ]
    have e : a + (m + 1) = a + m + 1 := by omega
    rw [e] at step ⊢
    linarith [ih]

/-- Helper: a sum over `m*(k+1)` indices regrouped into `m` blocks of `k+1`. -/
theorem sum_blocks (F : ℕ → ℝ) (k : ℕ) :
    ∀ m : ℕ, ∑ q in Finset.range (m * (k + 1)), F q =
      ∑ i in Finset.range m, ∑ j in Finset.range (k + 1), F (i * (k + 1) + j) := by
  intro m
  induction m with
  | zero => simp
  | succ m ih =>
    have hsplit : (m + 1) * (k + 1) = m * (k + 1) + (k + 1) := by ring
    rw [hsplit, Finset.range_eq_Ico, ← Finset.sum_Ico_consecutive (fun q => F q)
      (Nat.zero_le (m * (k + 1))) (Nat.le_add_right (m * (k + 1)) (k + 1)),
      ← Finset.range_eq_Ico, ih, Finset.sum_range_succ]
    congr 1
    rw [Finset.sum_Ico_eq_sum_range]
    simp [Nat.add_sub_cancel_left]

/-- Helper: `length_by_discretization` is monotone under nested refinement of
the uniform sampling: with `n+1` coarse segments each subdivided into `k+1`
fine segments, the coarse polyline is no longer than the fine one. -/
theorem bezierLengthFold_nested {P : Type} (sub : P → P → P) (mag : P → ℝ)
    (hzero : ∀ x, mag (sub x x) = 0)
    (htri : ∀ a b c, mag (sub a c) ≤ mag (sub a b) + mag (sub b c))
    (f : ℝ → P) (n k : ℕ) (hbig : (n + 1) * (k + 1) + 1 < 2 ^ 32) :
    bezierLengthFold sub mag f n ≤
      bezierLengthFold sub mag f ((n + 1) * (k + 1) - 1) := by
  have hD1 : 1 ≤ (n + 1) * (k + 1) := Nat.one_le_iff_ne_zero.mpr (by positivity)
  have hn1D : n + 1 ≤ (n + 1) * (k + 1) := Nat.le_mul_of_pos_right _ (Nat.succ_pos k)
  have hn2 : n + 2 < 2 ^ 32 := by omega
  have hND : ((n + 1) * (k + 1) - 1) + 2 < 2 ^ 32 := by omega
  rw [bezierLengthFold_eq_sum sub mag f n hn2,
    bezierLengthFold_eq_sum sub mag f ((n + 1) * (k + 1) - 1) hND]
  have hidx : ((n + 1) * (k + 1) - 1) + 1 = (n + 1) * (k + 1) := by omega
  rw [hidx]
  have hcastD : (((n + 1) * (k + 1) - 1 : ℕ) : ℝ) + 1 = ((n : ℝ) + 1) * ((k : ℝ) + 1) := by
    rw [Nat.cast_sub hD1]
    push_cast
    ring
  rw [hcastD]
  have hkR : ((k : ℝ) + 1) ≠ 0 := by positivity
  have hnR : ((n : ℝ) + 1) ≠ 0 := by positivity
  have hterm : ∀ q : ℕ,
      mag (sub (f ((1 + (q : ℝ)) / (((n : ℝ) + 1) * ((k : ℝ) + 1))))
        (f ((q : ℝ) / (((n : ℝ) + 1) * ((k : ℝ) + 1))))) =
      mag (sub ((fun r : ℕ => f ((r : ℝ) / (((n : ℝ) + 1) * ((k : ℝ) + 1)))) (q + 1))
        ((fun r : ℕ => f ((r : ℝ) / (((n : ℝ) + 1) * ((k : ℝ) + 1)))) q)) := by
    intro q
    have e : ((q + 1 : ℕ) : ℝ) = 1 + (q : ℝ) := by push_cast; ring
    simp only [e]
  rw [Finset.sum_congr rfl fun q _ => hterm q, sum_blocks _ k (n + 1)]
  refine Finset.sum_le_sum fun i _ => ?_
  have eA : (1 + (i : ℝ)) / ((n : ℝ) + 1) =
      ((i * (k + 1) + (k + 1) : ℕ) : ℝ) / (((n : ℝ) + 1) * ((k : ℝ) + 1)) := by
    push_cast
    field_simp
    ring
  have eB : (i : ℝ) / ((n : ℝ) + 1) =
      ((i * (k + 1) : ℕ) : ℝ) / (((n : ℝ) + 1) * ((k : ℝ) + 1)) := by
    push_cast
    field_simp
    ring
  rw [eA, eB]
  have := polyline_chord_le sub mag hzero htri
    (fun r : ℕ => f ((r : ℝ) / (((n : ℝ) + 1) * ((k : ℝ) + 1)))) (i * (k + 1)) (k + 1)
  exact this

/-- C9 counterexample: the quadratic curve (0,0), (-1/2, 1/20), (0, 1/10) is a
nondegenerate (convex) parabola arc, yet its discretized length with
`step_count = 2` is strictly smaller than with `step_count = 1`: the
discretized length is not non-decreasing in `step_count` even for convex
arcs (only nested refinements are monotone). -/
theorem c9_counterexample :
    (⟨⟨0, 0⟩, ⟨-(1/2), 1/20⟩, ⟨0, 1/10⟩⟩ : QuadraticBezier2 ℝ).isConvexParabolaArc ∧
    (⟨⟨0, 0⟩, ⟨-(1/2), 1/20⟩, ⟨0, 1/10⟩⟩ : QuadraticBezier2 ℝ).length_by_discretization 2 <
      (⟨⟨0, 0⟩, ⟨-(1/2), 1/20⟩, ⟨0, 1/10⟩⟩ : QuadraticBezier2 ℝ).length_by_discretization 1 := by
  constructor
  · simp only [QuadraticBezier2.isConvexParabolaArc, Vec2.sub, Vec2.add, Vec2.mul]
    norm_num
  · rw [QuadraticBezier2.length_by_discretization, QuadraticBezier2.length_by_discretization,
      bezierLengthFold_eq_sum _ _ _ 2 (by norm_num), bezierLengthFold_eq_sum _ _ _ 1 (by norm_num)]
    simp only [Finset.sum_range_succ, Finset.sum_range_zero]
    norm_num [QuadraticBezier2.evaluate, Vec2.add, Vec2.sub, Vec2.mul, Vec2.magnitude]
    have h8100 : Real.sqrt 8100 = 90 := by
      rw [show (8100 : ℝ) = 90 ^ 2 by norm_num, Real.sqrt_sq (by norm_num)]
    have h900 : Real.sqrt 900 = 30 := by
      rw [show (900 : ℝ) = 30 ^ 2 by norm_num, Real.sqrt_sq (by norm_num)]
    have h409 : Real.sqrt 409 ≤ 81 / 4 := by
      have := Real.sqrt_le_sqrt (show (409 : ℝ) ≤ (81 / 4) ^ 2 by norm_num)
      rwa [Real.sqrt_sq (by norm_num : (0 : ℝ) ≤ 81 / 4)] at this
    have h200pos : (0 : ℝ) < Real.sqrt 200 := Real.sqrt_pos.mpr (by norm_num)
    have hq : (1 : ℝ) / 4 < Real.sqrt 13 / Real.sqrt 200 := by
      have h16 : Real.sqrt 16 = 4 := by
        rw [show (16 : ℝ) = 4 ^ 2 by norm_num, Real.sqrt_sq (by norm_num)]
      have hlt : Real.sqrt 200 < 4 * Real.sqrt 13 := by
        have h' : Real.sqrt 200 < Real.sqrt 208 :=
          Real.sqrt_lt_sqrt (by norm_num) (by norm_num)
        rwa [show (208 : ℝ) = 16 * 13 by norm_num,
          Real.sqrt_mul (by norm_num : (0 : ℝ) ≤ 16), h16] at h'
      rw [lt_div_iff₀ h200pos]
      linarith
    rw [h8100, h900]
    have hinv : ((30 : ℝ))⁻¹ = 1 / 30 := by norm_num
    rw [hinv]
    linarith

/-- C9 (amended): for every curve (convex or not), `length_by_discretization`
is non-decreasing under nested refinement of the sampling: if the finer
sampling subdivides each of the `n+1` coarse segments into `k+1` parts (that
is, the finer step count is `(n+1)*(k+1) - 1`), the coarse polyline length is
at most the finer one.  For general consecutive step counts monotonicity fails
even on convex arcs. -/
theorem c9_amended :
    (∀ (c : QuadraticBezier2 ℝ) (n k : ℕ), (n + 1) * (k + 1) + 1 < 2 ^ 32 →
      c.length_by_discretization n ≤
        c.length_by_discretization ((n + 1) * (k + 1) - 1)) ∧
    (∀ (c : QuadraticBezier3 ℝ) (n k : ℕ), (n + 1) * (k + 1) + 1 < 2 ^ 32 →
      c.length_by_discretization n ≤
        c.length_by_discretization ((n + 1) * (k + 1) - 1)) ∧
    (∀ (c : CubicBezier2 ℝ) (n k : ℕ), (n + 1) * (k + 1) + 1 < 2 ^ 32 →
      c.length_by_discretization n ≤
        c.length_by_discretization ((n + 1) * (k + 1) - 1)) ∧
    (∀ (c : CubicBezier3 ℝ) (n k : ℕ), (n + 1) * (k + 1) + 1 < 2 ^ 32 →
      c.length_by_discretization n ≤
        c.length_by_discretization ((n + 1) * (k + 1) - 1)) := by
  have hzero2 : ∀ x : Vec2 ℝ, (x.sub x).magnitude = 0 := by
    intro x
    simp [Vec2.sub, Vec2.magnitude]
  have hzero3 : ∀ x : Vec3 ℝ, (x.sub x).magnitude = 0 := by
    intro x
    simp [Vec3.sub, Vec3.magnitude]
  refine ⟨fun c n k h => ?_, fun c n k h => ?_, fun c n k h => ?_, fun c n k h => ?_⟩
  · exact bezierLengthFold_nested Vec2.sub Vec2.magnitude hzero2
      vec2_magnitude_sub_triangle c.evaluate n k h
  · exact bezierLengthFold_nested Vec3.sub Vec3.magnitude hzero3
      vec3_magnitude_sub_triangle c.evaluate n k h
  · exact bezierLengthFold_nested Vec2.sub Vec2.magnitude hzero2
      vec2_magnitude_sub_triangle c.evaluate n k h
  · exact bezierLengthFold_nested Vec3.sub Vec3.magnitude hzero3
      vec3_magnitude_sub_triangle c.evaluate n k h

/-- C9 witness: for the concrete quadratic curve (0,0)-(1,2)-(2,0), one coarse
segment subdivided in two (`n = 0`, `k = 1`, finer step count 1) satisfies
the size hypothesis and the nested monotonicity. -/
theorem c9_amended_witness :
    ((0 : ℕ) + 1) * (1 + 1) + 1 < 2 ^ 32 ∧
    (⟨⟨0, 0⟩, ⟨1, 2⟩, ⟨2, 0⟩⟩ : QuadraticBezier2 ℝ).length_by_discretization 0 ≤
      (⟨⟨0, 0⟩, ⟨1, 2⟩, ⟨2, 0⟩⟩ : QuadraticBezier2 ℝ).length_by_discretization
        ((0 + 1) * (1 + 1) - 1) :=
  ⟨by norm_num, c9_amended.1 ⟨⟨0, 0⟩, ⟨1, 2⟩, ⟨2, 0⟩⟩ 0 1 (by norm_num)⟩

/-- Helper: the source's coarse fold equals the spec's recursive minimum. -/
theorem coarseFold_eq_specCoarseBest (p : Vec2 ℚ) :
    ∀ (l : List (ℚ × Vec2 ℚ)) (init : ℚ × Vec2 ℚ × ℚ),
      coarseFold p l init = specCoarseBest p l init := by
  intro l
  induction l with
  | nil => intro init; rfl
  | cons a l ih =>
    intro init
    rw [coarseFold, List.foldl_cons, specCoarseBest]
    exact ih _

/-- Helper: the source's refinement loop equals the spec's refinement
recursion, at every fuel and state. -/
theorem refine_loop_eq_specRefine (c : QuadraticBezier2 ℚ) (p : Vec2 ℚ) (ε : ℚ) :
    ∀ (fuel : ℕ) (s : BSearchState),
      c.refine_loop p ε fuel s = specRefine c p ε fuel s.t s.pt s.d s.h := by
  intro fuel
  induction fuel with
  | zero => intro s; rfl
  | succ n ih =>
    intro s
    rw [QuadraticBezier2.refine_loop, specRefine]
    by_cases hc : s.h < ε
    · simp only [hc, if_true]
    · simp only [hc, if_false]
      rw [QuadraticBezier2.refine_step]
      by_cases himp : p.distance_squared (c.evaluate (s.t - s.h)) < s.d ∨
          p.distance_squared (c.evaluate (s.t + s.h)) < s.d
      · have himp' : min (p.distance_squared (c.evaluate (s.t - s.h)))
            (p.distance_squared (c.evaluate (s.t + s.h))) < s.d := min_lt_iff.mpr himp
        simp only [himp, if_true, himp', if_true]
        by_cases hlt : p.distance_squared (c.evaluate (s.t - s.h)) <
            p.distance_squared (c.evaluate (s.t + s.h))
        · simp only [hlt, if_true]
          exact ih _
        · simp only [hlt, if_false]
          exact ih _
      · have himp' : ¬ min (p.distance_squared (c.evaluate (s.t - s.h)))
            (p.distance_squared (c.evaluate (s.t + s.h))) < s.d := by
          rw [min_lt_iff]
          exact himp
        simp only [himp, if_false, himp', if_false]
        exact ih _

/-- Helper: at `steps = 65535` the `u16` bound `steps + 1` wraps to zero and
the coarse iterator is empty. -/
theorem coarse_list_wrap (c : QuadraticBezier2 ℚ) :
    c.coarse_list 65535 = [] := by
  have h : (65535 + 1) % 2 ^ 16 = 0 := by norm_num
  rw [QuadraticBezier2.coarse_list, h]
  rfl

/-- C6 counterexample: the claim says the coarse phase evaluates `steps + 1`
uniformly spaced samples, but at `steps = 65535` the `u16` computation
`steps + 1` wraps to zero (release builds; a debug build panics instead), so
the coarse iterator holds 0 samples rather than `65535 + 1 = 65536`. -/
theorem c6_counterexample :
    ((⟨⟨0, 0⟩, ⟨1, 0⟩, ⟨2, 0⟩⟩ : QuadraticBezier2 ℚ).coarse_list 65535).length = 0 ∧
    (65535 : ℕ) + 1 = 65536 :=
  ⟨by rw [coarse_list_wrap]; rfl, rfl⟩

/-- C6 (amended): the point-projection search follows the spec's algorithm on
every non-wrapping `u16` step count.  First conjunct: for every curve, query
point, `steps < 65535`, tolerance and fuel, `binary_search_point_easy`
(endpoint initial candidate at t = 1, `steps+1` grid samples `i/steps`,
minimum squared distance, refinement from `h = 1/(2*steps)` adopting the
smaller-distance improving probe at the same `h` and halving otherwise,
stopping when `h < epsilon`) coincides with the spec-worded search
`specProjectPoint`.  Second conjunct: at `steps = 65535` the wrapped bound
empties the coarse phase, so the search runs with no grid samples, only the
endpoint candidate.  Third conjunct: a concrete run whose returned parameter
t = 5 lies far outside [0,1], witnessing that the result is not clamped. -/
theorem c6_amended :
    (∀ (c : QuadraticBezier2 ℚ) (p : Vec2 ℚ) (steps : ℕ) (ε : ℚ) (fuel : ℕ),
      steps < 65535 →
      c.binary_search_point_easy p steps ε fuel = specProjectPoint c p steps ε fuel) ∧
    (∀ (c : QuadraticBezier2 ℚ) (p : Vec2 ℚ) (ε : ℚ) (fuel : ℕ),
      c.binary_search_point_easy p 65535 ε fuel =
        c.binary_search_point p []
          (((65535 : ℕ) : ℚ) + ((65535 : ℕ) : ℚ))⁻¹ ε fuel) ∧
    (⟨⟨0, 0⟩, ⟨1, 0⟩, ⟨2, 0⟩⟩ : QuadraticBezier2 ℚ).binary_search_point_easy
      ⟨10, 0⟩ 1 (1/4) 12 = some (5, ⟨10, 0⟩) := by
  refine ⟨?_, ?_, ?_⟩
  · intro c p steps ε fuel hsteps
    have hmod : (steps + 1) % 2 ^ 16 = steps + 1 := Nat.mod_eq_of_lt (by omega)
    rw [QuadraticBezier2.binary_search_point_easy, QuadraticBezier2.binary_search_point,
      specProjectPoint, QuadraticBezier2.coarse_list, hmod]
    rw [coarseFold_eq_specCoarseBest, refine_loop_eq_specRefine]
    congr 1
    rw [← two_mul, one_div]
  · intro c p ε fuel
    rw [QuadraticBezier2.binary_search_point_easy, coarse_list_wrap]
  · norm_num [QuadraticBezier2.binary_search_point_easy,
      QuadraticBezier2.binary_search_point, QuadraticBezier2.coarse_list,
      coarseFold, QuadraticBezier2.refine_loop, QuadraticBezier2.refine_step,
      QuadraticBezier2.evaluate, Vec2.distance_squared, Vec2.add, Vec2.sub,
      Vec2.mul, List.range_succ]

/-- C6 witness: the spec-equivalence applied at a concrete curve, query point,
non-wrapping step count, tolerance and fuel. -/
theorem c6_amended_witness :
    (1 : ℕ) < 65535 ∧
    (⟨⟨0, 0⟩, ⟨1, 0⟩, ⟨2, 0⟩⟩ : QuadraticBezier2 ℚ).binary_search_point_easy
      ⟨10, 0⟩ 1 (1/4) 12 =
      specProjectPoint ⟨⟨0, 0⟩, ⟨1, 0⟩, ⟨2, 0⟩⟩ ⟨10, 0⟩ 1 (1/4) 12 :=
  ⟨by norm_num, c6_amended.1 ⟨⟨0, 0⟩, ⟨1, 0⟩, ⟨2, 0⟩⟩ ⟨10, 0⟩ 1 (1/4) 12 (by norm_num)⟩

/-- Helper: sublevel sets of a degree-2 polynomial with positive leading
coefficient are bounded. -/
theorem poly2_sublevel (B2 B1 B0 d0 : ℚ) (hB2 : 0 < B2) :
    ∃ M : ℚ, 1 ≤ M ∧ ∀ u : ℚ, B2 * u ^ 2 + B1 * u + B0 < d0 → |u| ≤ M := by
  refine ⟨1 + (|B1| + |B0 - d0|) / B2, ?_, ?_⟩
  · have h : 0 ≤ (|B1| + |B0 - d0|) / B2 :=
      div_nonneg (add_nonneg (abs_nonneg _) (abs_nonneg _)) hB2.le
    linarith
  · intro u hu
    by_contra hgt
    push_neg at hgt
    have hau0 : 0 ≤ |u| := abs_nonneg u
    have hS : 0 ≤ (|B1| + |B0 - d0|) / B2 :=
      div_nonneg (add_nonneg (abs_nonneg _) (abs_nonneg _)) hB2.le
    have hau1 : 1 ≤ |u| := by linarith
    have hM : B2 * (1 + (|B1| + |B0 - d0|) / B2) = B2 + (|B1| + |B0 - d0|) := by
      field_simp
    have hBau : B2 + (|B1| + |B0 - d0|) ≤ B2 * |u| := by
      rw [← hM]
      exact mul_le_mul_of_nonneg_left hgt.le hB2.le
    have hu2 : u ^ 2 = |u| ^ 2 := (sq_abs u).symm
    have hB1u : -(|B1| * |u|) ≤ B1 * u := by
      have h2 := neg_abs_le (B1 * u)
      rwa [abs_mul] at h2
    have hB0 : -|B0 - d0| ≤ B0 - d0 := neg_abs_le _
    have hsq : (B2 + (|B1| + |B0 - d0|)) * |u| ≤ B2 * |u| * |u| :=
      mul_le_mul_of_nonneg_right hBau hau0
    have hb1 : |B1| * 1 ≤ |B1| * |u| := mul_le_mul_of_nonneg_left hau1 (abs_nonneg _)
    have hb0 : |B0 - d0| * 1 ≤ |B0 - d0| * |u| := mul_le_mul_of_nonneg_left hau1 (abs_nonneg _)
    nlinarith [hsq, hb1, hb0, hB1u, hB0, hu2, hau1, hB2]

/-- Helper: sublevel sets of a degree-4 polynomial with positive leading
coefficient are bounded. -/
theorem poly4_sublevel (A4 A3 A2 A1 A0 d0 : ℚ) (hA4 : 0 < A4) :
    ∃ M : ℚ, 1 ≤ M ∧
      ∀ u : ℚ, A4 * u ^ 4 + A3 * u ^ 3 + A2 * u ^ 2 + A1 * u + A0 < d0 → |u| ≤ M := by
  refine ⟨1 + (|A3| + |A2| + |A1| + |A0 - d0|) / A4, ?_, ?_⟩
  · have h : 0 ≤ (|A3| + |A2| + |A1| + |A0 - d0|) / A4 :=
      div_nonneg (by positivity) hA4.le
    linarith
  · intro u hu
    by_contra hgt
    push_neg at hgt
    have hau0 : 0 ≤ |u| := abs_nonneg u
    have hS : 0 ≤ (|A3| + |A2| + |A1| + |A0 - d0|) / A4 :=
      div_nonneg (by positivity) hA4.le
    have hau1 : 1 ≤ |u| := by linarith
    have hM : A4 * (1 + (|A3| + |A2| + |A1| + |A0 - d0|) / A4) =
        A4 + (|A3| + |A2| + |A1| + |A0 - d0|) := by
      field_simp
    have hBau : A4 + (|A3| + |A2| + |A1| + |A0 - d0|) ≤ A4 * |u| := by
      rw [← hM]
      exact mul_le_mul_of_nonneg_left hgt.le hA4.le
    have hu2 : u ^ 2 = |u| ^ 2 := (sq_abs u).symm
    have hu4 : u ^ 4 = |u| ^ 4 := by
      rw [← abs_of_nonneg (a := u ^ 4) (by positivity), abs_pow]
    have hA3u : -(|A3| * |u| ^ 3) ≤ A3 * u ^ 3 := by
      have h2 := neg_abs_le (A3 * u ^ 3)
      rwa [abs_mul, abs_pow] at h2
    have hA1u : -(|A1| * |u|) ≤ A1 * u := by
      have h2 := neg_abs_le (A1 * u)
      rwa [abs_mul] at h2
    have hA2u : -(|A2| * |u| ^ 2) ≤ A2 * u ^ 2 := by
      have h2 := neg_abs_le (A2 * u ^ 2)
      rwa [abs_mul, abs_pow] at h2
    have hB0 : -|A0 - d0| ≤ A0 - d0 := neg_abs_le _
    have hcube1 : 1 ≤ |u| ^ 3 := one_le_pow₀ hau1
    have hcube2 : |u| ≤ |u| ^ 3 := by nlinarith [hau1, hau0]
    have hcube3 : |u| ^ 2 ≤ |u| ^ 3 := by nlinarith [hau1, hau0]
    have hsq : (A4 + (|A3| + |A2| + |A1| + |A0 - d0|)) * |u| ^ 3 ≤ A4 * |u| * |u| ^ 3 :=
      mul_le_mul_of_nonneg_right hBau (by positivity)
    have ha3 : |A3| * |u| ^ 3 ≤ |A3| * |u| ^ 3 := le_refl _
    have ha2 : |A2| * |u| ^ 2 ≤ |A2| * |u| ^ 3 :=
      mul_le_mul_of_nonneg_left hcube3 (abs_nonneg _)
    have ha1 : |A1| * |u| ≤ |A1| * |u| ^ 3 :=
      mul_le_mul_of_nonneg_left hcube2 (abs_nonneg _)
    have ha0 : |A0 - d0| * 1 ≤ |A0 - d0| * |u| ^ 3 :=
      mul_le_mul_of_nonneg_left hcube1 (abs_nonneg _)
    nlinarith [hsq, ha2, ha1, ha0, hA3u, hA2u, hA1u, hB0, hu2, hu4, hau1, hA4, hcube1]

/-- Helper: outside a computable bound, the squared distance to the quadratic
curve exceeds any value it attains below `d0`; the squared distance is a
polynomial of degree 4, 2 or 0 in the parameter, and in the constant case the
hypothesis `d0 ≤ quadDistSq c p 1` makes the sublevel set empty. -/
theorem quadDistSq_sublevel (c : QuadraticBezier2 ℚ) (p : Vec2 ℚ) (d0 : ℚ)
    (hd0 : d0 ≤ quadDistSq c p 1) :
    ∃ M : ℚ, 1 ≤ M ∧ ∀ u : ℚ, quadDistSq c p u < d0 → |u| ≤ M := by
  obtain ⟨⟨sx, sy⟩, ⟨qx, qy⟩, ⟨ex, ey⟩⟩ := c
  obtain ⟨px, py⟩ := p
  have hpoly : ∀ u : ℚ,
      quadDistSq ⟨⟨sx, sy⟩, ⟨qx, qy⟩, ⟨ex, ey⟩⟩ ⟨px, py⟩ u =
        ((sx - 2*qx + ex)^2 + (sy - 2*qy + ey)^2) * u^4 +
        (2*((sx - 2*qx + ex)*(2*(qx - sx)) + (sy - 2*qy + ey)*(2*(qy - sy)))) * u^3 +
        ((2*(qx - sx))^2 + (2*(qy - sy))^2 +
          2*((sx - 2*qx + ex)*(sx - px) + (sy - 2*qy + ey)*(sy - py))) * u^2 +
        (2*((2*(qx - sx))*(sx - px) + (2*(qy - sy))*(sy - py))) * u +
        ((sx - px)^2 + (sy - py)^2) := by
    intro u
    simp only [quadDistSq, Vec2.distance_squared, QuadraticBezier2.evaluate,
      Vec2.add, Vec2.mul]
    ring
  rcases lt_or_eq_of_le
      (by positivity : (0:ℚ) ≤ (sx - 2*qx + ex)^2 + (sy - 2*qy + ey)^2) with hA4 | hA4
  · obtain ⟨M, hM1, hM⟩ := poly4_sublevel
      ((sx - 2*qx + ex)^2 + (sy - 2*qy + ey)^2)
      (2*((sx - 2*qx + ex)*(2*(qx - sx)) + (sy - 2*qy + ey)*(2*(qy - sy))))
      ((2*(qx - sx))^2 + (2*(qy - sy))^2 +
        2*((sx - 2*qx + ex)*(sx - px) + (sy - 2*qy + ey)*(sy - py)))
      (2*((2*(qx - sx))*(sx - px) + (2*(qy - sy))*(sy - py)))
      ((sx - px)^2 + (sy - py)^2) d0 hA4
    refine ⟨M, hM1, fun u hu => hM u ?_⟩
    rw [hpoly u] at hu
    exact hu
  · have h1 : (sx - 2*qx + ex)^2 ≤ 0 := by nlinarith [sq_nonneg (sy - 2*qy + ey)]
    have h2 : (sy - 2*qy + ey)^2 ≤ 0 := by nlinarith [sq_nonneg (sx - 2*qx + ex)]
    have hax : sx - 2*qx + ex = 0 :=
      (pow_eq_zero_iff (by norm_num)).mp (le_antisymm h1 (sq_nonneg _))
    have hay : sy - 2*qy + ey = 0 :=
      (pow_eq_zero_iff (by norm_num)).mp (le_antisymm h2 (sq_nonneg _))
    rcases lt_or_eq_of_le
        (by positivity : (0:ℚ) ≤ (2*(qx - sx))^2 + (2*(qy - sy))^2) with hB2 | hB2
    · have hpoly2 : ∀ u : ℚ,
          quadDistSq ⟨⟨sx, sy⟩, ⟨qx, qy⟩, ⟨ex, ey⟩⟩ ⟨px, py⟩ u =
            ((2*(qx - sx))^2 + (2*(qy - sy))^2) * u^2 +
            (2*((2*(qx - sx))*(sx - px) + (2*(qy - sy))*(sy - py))) * u +
            ((sx - px)^2 + (sy - py)^2) := by
        intro u
        rw [hpoly u, hax, hay]
        ring
      obtain ⟨M, hM1, hM⟩ := poly2_sublevel
        ((2*(qx - sx))^2 + (2*(qy - sy))^2)
        (2*((2*(qx - sx))*(sx - px) + (2*(qy - sy))*(sy - py)))
        ((sx - px)^2 + (sy - py)^2) d0 hB2
      refine ⟨M, hM1, fun u hu => hM u ?_⟩
      rw [hpoly2 u] at hu
      exact hu
    · have h3 : (2*(qx - sx))^2 ≤ 0 := by nlinarith [sq_nonneg (2*(qy - sy))]
      have h4 : (2*(qy - sy))^2 ≤ 0 := by nlinarith [sq_nonneg (2*(qx - sx))]
      have hbx : 2*(qx - sx) = 0 :=
        (pow_eq_zero_iff (by norm_num)).mp (le_antisymm h3 (sq_nonneg _))
      have hby : 2*(qy - sy) = 0 :=
        (pow_eq_zero_iff (by norm_num)).mp (le_antisymm h4 (sq_nonneg _))
      refine ⟨1, le_refl 1, fun u hu => ?_⟩
      exfalso
      have hcu : quadDistSq ⟨⟨sx, sy⟩, ⟨qx, qy⟩, ⟨ex, ey⟩⟩ ⟨px, py⟩ u =
          (sx - px)^2 + (sy - py)^2 := by
        rw [hpoly u, hax, hay, hbx, hby]
        ring
      have hc1 : quadDistSq ⟨⟨sx, sy⟩, ⟨qx, qy⟩, ⟨ex, ey⟩⟩ ⟨px, py⟩ 1 =
          (sx - px)^2 + (sy - py)^2 := by
        rw [hpoly 1, hax, hay, hbx, hby]
        ring
      rw [hcu] at hu
      rw [hc1] at hd0
      linarith

/-- Helper: a strictly improving probe step (same `h`) strictly decreases the
number of lattice parameters, within the window `[-N, N]`, whose squared
distance beats the current one; the window is wide enough because every
improving parameter lies in the sublevel set bounded by `M`. -/
theorem walk_card_decrease (c : QuadraticBezier2 ℚ) (p : Vec2 ℚ)
    (d0 M h : ℚ) (hM1 : 1 ≤ M) (hSL : ∀ u, quadDistSq c p u < d0 → |u| ≤ M)
    (hh : 0 < h) (N : ℤ) (hN : 2*M/h + 1 ≤ (N : ℚ))
    (t d : ℚ) (hd : d ≤ d0)
    (σ : ℤ) (hσ : σ = 1 ∨ σ = -1)
    (himp : quadDistSq c p (t + (σ:ℚ)*h) < d) :
    ((Finset.Icc (-N) N).filter
        (fun k : ℤ => quadDistSq c p ((t + (σ:ℚ)*h) + (k:ℚ)*h) <
          quadDistSq c p (t + (σ:ℚ)*h))).card <
    ((Finset.Icc (-N) N).filter
        (fun k : ℤ => quadDistSq c p (t + (k:ℚ)*h) < d)).card := by
  have hd't : quadDistSq c p (t + (σ:ℚ)*h) < d0 := lt_of_lt_of_le himp hd
  have ht' : |t + (σ:ℚ)*h| ≤ M := hSL _ hd't
  have hMpos : (0:ℚ) < 2*M/h := by positivity
  have hN1 : (1:ℤ) ≤ N := by
    have : (1:ℚ) ≤ (N:ℚ) := by linarith
    exact_mod_cast this
  have habsσ : |σ| = 1 := by rcases hσ with h1 | h1 <;> simp [h1]
  have hsub : (((Finset.Icc (-N) N).filter
      (fun k : ℤ => quadDistSq c p ((t + (σ:ℚ)*h) + (k:ℚ)*h) <
        quadDistSq c p (t + (σ:ℚ)*h))).image (· + σ)) ⊆
      (Finset.Icc (-N) N).filter (fun k : ℤ => quadDistSq c p (t + (k:ℚ)*h) < d) := by
    intro j hj
    obtain ⟨k, hk, rfl⟩ := Finset.mem_image.mp hj
    obtain ⟨_, hkval⟩ := Finset.mem_filter.mp hk
    have hkd0 : quadDistSq c p ((t + (σ:ℚ)*h) + (k:ℚ)*h) < d0 :=
      lt_of_lt_of_le (lt_trans hkval himp) hd
    have hbound : |(t + (σ:ℚ)*h) + (k:ℚ)*h| ≤ M := hSL _ hkd0
    have hkh : |(k:ℚ)*h| ≤ 2*M := by
      have e : (k:ℚ)*h = ((t + (σ:ℚ)*h) + (k:ℚ)*h) - (t + (σ:ℚ)*h) := by ring
      calc |(k:ℚ)*h| = |((t + (σ:ℚ)*h) + (k:ℚ)*h) - (t + (σ:ℚ)*h)| := by rw [← e]
        _ ≤ |(t + (σ:ℚ)*h) + (k:ℚ)*h| + |t + (σ:ℚ)*h| := abs_sub _ _
        _ ≤ 2*M := by linarith
    have hkabs : |(k:ℚ)| ≤ 2*M/h := by
      rw [le_div_iff₀ hh]
      have h2 : |(k:ℚ)| * |h| ≤ 2*M := by rwa [← abs_mul]
      rwa [abs_of_pos hh] at h2
    have hjq : (|k + σ| : ℚ) ≤ (N : ℚ) := by
      have h1 : |k + σ| ≤ |k| + |σ| := abs_add _ _
      have h1q : (|k + σ| : ℚ) ≤ (|k| : ℚ) + (|σ| : ℚ) := by exact_mod_cast h1
      have h2 : |(σ:ℚ)| = 1 := by rcases hσ with h3 | h3 <;> subst h3 <;> norm_num
      linarith
    have hjZ : |k + σ| ≤ N := by exact_mod_cast hjq
    refine Finset.mem_filter.mpr ⟨Finset.mem_Icc.mpr ?_, ?_⟩
    · have := abs_le.mp hjZ
      exact ⟨this.1, this.2⟩
    · have e : t + ((k + σ : ℤ) : ℚ)*h = (t + (σ:ℚ)*h) + (k:ℚ)*h := by
        push_cast
        ring
      rw [e]
      exact lt_trans hkval himp
  have hσA : σ ∈ (Finset.Icc (-N) N).filter
      (fun k : ℤ => quadDistSq c p (t + (k:ℚ)*h) < d) := by
    refine Finset.mem_filter.mpr ⟨Finset.mem_Icc.mpr ?_, himp⟩
    constructor <;> rcases hσ with h1 | h1 <;> omega
  have hσnot : σ ∉ (((Finset.Icc (-N) N).filter
      (fun k : ℤ => quadDistSq c p ((t + (σ:ℚ)*h) + (k:ℚ)*h) <
        quadDistSq c p (t + (σ:ℚ)*h))).image (· + σ)) := by
    intro hmem
    obtain ⟨k, hk, hkeq⟩ := Finset.mem_image.mp hmem
    have hk0 : k = 0 := by omega
    subst hk0
    have := (Finset.mem_filter.mp hk).2
    simp only [Int.cast_zero, zero_mul, add_zero] at this
    exact lt_irrefl _ this
  calc ((Finset.Icc (-N) N).filter
      (fun k : ℤ => quadDistSq c p ((t + (σ:ℚ)*h) + (k:ℚ)*h) <
        quadDistSq c p (t + (σ:ℚ)*h))).card
      = (((Finset.Icc (-N) N).filter
        (fun k : ℤ => quadDistSq c p ((t + (σ:ℚ)*h) + (k:ℚ)*h) <
          quadDistSq c p (t + (σ:ℚ)*h))).image (· + σ)).card :=
        (Finset.card_image_of_injective _ (add_left_injective σ)).symm
    _ < ((Finset.Icc (-N) N).filter
        (fun k : ℤ => quadDistSq c p (t + (k:ℚ)*h) < d)).card :=
        Finset.card_lt_card ((Finset.ssubset_iff_of_subset hsub).mpr ⟨σ, hσA, hσnot⟩)

/-- Helper: to terminate from `s` (when the guard holds) it is enough to
terminate from the stepped state. -/
theorem refine_loop_step_back (c : QuadraticBezier2 ℚ) (p : Vec2 ℚ) (ε : ℚ)
    (s : BSearchState) (hlt : ¬ s.h < ε)
    (h : ∃ n, (c.refine_loop p ε n (c.refine_step p s)).isSome) :
    ∃ n, (c.refine_loop p ε n s).isSome := by
  obtain ⟨n, hn⟩ := h
  refine ⟨n + 1, ?_⟩
  rw [QuadraticBezier2.refine_loop]
  simp only [hlt, if_false]
  exact hn

/-- Helper: `walk_card_decrease` restated for an explicitly named probe
parameter. -/
theorem walk_card_decrease' (c : QuadraticBezier2 ℚ) (p : Vec2 ℚ)
    (d0 M h : ℚ) (hM1 : 1 ≤ M) (hSL : ∀ u, quadDistSq c p u < d0 → |u| ≤ M)
    (hh : 0 < h) (N : ℤ) (hN : 2*M/h + 1 ≤ (N : ℚ))
    (t d : ℚ) (hd : d ≤ d0)
    (σ : ℤ) (hσ : σ = 1 ∨ σ = -1)
    (t' : ℚ) (ht' : t' = t + (σ:ℚ)*h)
    (himp : quadDistSq c p t' < d) :
    ((Finset.Icc (-N) N).filter
        (fun k : ℤ => quadDistSq c p (t' + (k:ℚ)*h) < quadDistSq c p t')).card <
    ((Finset.Icc (-N) N).filter
        (fun k : ℤ => quadDistSq c p (t + (k:ℚ)*h) < d)).card := by
  subst ht'
  exact walk_card_decrease c p d0 M h hM1 hSL hh N hN t d hd σ hσ himp

/-- Helper: within one phase (fixed `h`), the loop terminates: every improving
step strictly decreases the improving-lattice cardinality, and a non-improving
step hands over to the next phase (`h/2`), whose termination is assumed. -/
theorem phase_terminates (c : QuadraticBezier2 ℚ) (p : Vec2 ℚ) (ε d0 M : ℚ)
    (hε : 0 < ε) (hM1 : 1 ≤ M)
    (hSL : ∀ u, quadDistSq c p u < d0 → |u| ≤ M)
    (hphase : ℚ) (N : ℤ) (hN : 2*M/hphase + 1 ≤ (N : ℚ))
    (hnext : ∀ s' : BSearchState, s'.h = hphase / 2 →
      s'.d = quadDistSq c p s'.t → s'.d ≤ d0 →
      ∃ n, (c.refine_loop p ε n s').isSome) :
    ∀ (a : ℕ) (s : BSearchState), s.h = hphase →
      s.d = quadDistSq c p s.t → s.d ≤ d0 →
      ((Finset.Icc (-N) N).filter
        (fun k : ℤ => quadDistSq c p (s.t + (k:ℚ)*s.h) < s.d)).card ≤ a →
      ∃ n, (c.refine_loop p ε n s).isSome := by
  intro a
  induction a using Nat.strong_induction_on with
  | _ a ih =>
    intro s hsh hsd hsdle hcard
    by_cases hlt : s.h < ε
    · exact ⟨0, by simp [QuadraticBezier2.refine_loop, hlt]⟩
    · have hhpos : 0 < s.h := lt_of_lt_of_le hε (not_lt.mp hlt)
      have hq : ∀ u : ℚ, p.distance_squared (c.evaluate u) = quadDistSq c p u :=
        fun _ => rfl
      by_cases himp : p.distance_squared (c.evaluate (s.t - s.h)) < s.d ∨
          p.distance_squared (c.evaluate (s.t + s.h)) < s.d
      · by_cases h12 : p.distance_squared (c.evaluate (s.t - s.h)) <
            p.distance_squared (c.evaluate (s.t + s.h))
        · have hstep : c.refine_step p s =
              ⟨s.t - s.h, c.evaluate (s.t - s.h),
                p.distance_squared (c.evaluate (s.t - s.h)), s.h⟩ := by
            rw [QuadraticBezier2.refine_step]
            simp only [himp, h12, if_true]
          have himp1 : quadDistSq c p (s.t - s.h) < s.d := by
            rw [← hq]
            rcases himp with h' | h'
            · exact h'
            · exact lt_trans h12 h'
          have hcard' : ((Finset.Icc (-N) N).filter
              (fun k : ℤ => quadDistSq c p ((s.t - s.h) + (k:ℚ)*s.h) <
                quadDistSq c p (s.t - s.h))).card <
              ((Finset.Icc (-N) N).filter
                (fun k : ℤ => quadDistSq c p (s.t + (k:ℚ)*s.h) < s.d)).card :=
            walk_card_decrease' c p d0 M s.h hM1 hSL hhpos N
              (by rw [hsh]; exact hN) s.t s.d hsdle (-1) (Or.inr rfl) (s.t - s.h)
              (by push_cast; ring) himp1
          refine refine_loop_step_back c p ε s hlt ?_
          rw [hstep]
          exact ih (((Finset.Icc (-N) N).filter
              (fun k : ℤ => quadDistSq c p ((s.t - s.h) + (k:ℚ)*s.h) <
                quadDistSq c p (s.t - s.h))).card)
            (lt_of_lt_of_le hcard' hcard)
            ⟨s.t - s.h, c.evaluate (s.t - s.h),
              p.distance_squared (c.evaluate (s.t - s.h)), s.h⟩
            hsh (hq _) (le_of_lt (lt_of_lt_of_le himp1 hsdle)) (le_refl _)
        · have hstep : c.refine_step p s =
              ⟨s.t + s.h, c.evaluate (s.t + s.h),
                p.distance_squared (c.evaluate (s.t + s.h)), s.h⟩ := by
            rw [QuadraticBezier2.refine_step]
            simp only [himp, h12, if_true, if_false]
          have himp2 : quadDistSq c p (s.t + s.h) < s.d := by
            rw [← hq]
            rcases himp with h' | h'
            · exact lt_of_le_of_lt (not_lt.mp h12) h'
            · exact h'
          have hcard' : ((Finset.Icc (-N) N).filter
              (fun k : ℤ => quadDistSq c p ((s.t + s.h) + (k:ℚ)*s.h) <
                quadDistSq c p (s.t + s.h))).card <
              ((Finset.Icc (-N) N).filter
                (fun k : ℤ => quadDistSq c p (s.t + (k:ℚ)*s.h) < s.d)).card :=
            walk_card_decrease' c p d0 M s.h hM1 hSL hhpos N
              (by rw [hsh]; exact hN) s.t s.d hsdle 1 (Or.inl rfl) (s.t + s.h)
              (by push_cast; ring) himp2
          refine refine_loop_step_back c p ε s hlt ?_
          rw [hstep]
          exact ih (((Finset.Icc (-N) N).filter
              (fun k : ℤ => quadDistSq c p ((s.t + s.h) + (k:ℚ)*s.h) <
                quadDistSq c p (s.t + s.h))).card)
            (lt_of_lt_of_le hcard' hcard)
            ⟨s.t + s.h, c.evaluate (s.t + s.h),
              p.distance_squared (c.evaluate (s.t + s.h)), s.h⟩
            hsh (hq _) (le_of_lt (lt_of_lt_of_le himp2 hsdle)) (le_refl _)
      · have hstep : c.refine_step p s = ⟨s.t, s.pt, s.d, s.h / 2⟩ := by
          rw [QuadraticBezier2.refine_step]
          simp only [himp, if_false]
        refine refine_loop_step_back c p ε s hlt ?_
        rw [hstep]
        exact hnext ⟨s.t, s.pt, s.d, s.h / 2⟩ (by simp [hsh]) hsd hsdle

/-- Helper: the refinement loop terminates from any state whose `h` is below
`epsilon * 2^K`, by induction on the number `K` of halvings left. -/
theorem refine_loop_terminates (c : QuadraticBezier2 ℚ) (p : Vec2 ℚ)
    (ε d0 M : ℚ) (hε : 0 < ε) (hM1 : 1 ≤ M)
    (hSL : ∀ u, quadDistSq c p u < d0 → |u| ≤ M) :
    ∀ K : ℕ, ∀ s : BSearchState, s.h < ε * 2 ^ K →
      s.d = quadDistSq c p s.t → s.d ≤ d0 →
      ∃ n, (c.refine_loop p ε n s).isSome := by
  intro K
  induction K with
  | zero =>
    intro s hK hsd hsdle
    refine ⟨0, ?_⟩
    have hlt : s.h < ε := by
      have : ε * 2 ^ (0:ℕ) = ε := by norm_num
      rwa [this] at hK
    simp [QuadraticBezier2.refine_loop, hlt]
  | succ K ih =>
    intro s hK hsd hsdle
    by_cases hlt : s.h < ε
    · exact ⟨0, by simp [QuadraticBezier2.refine_loop, hlt]⟩
    · have hhpos : 0 < s.h := lt_of_lt_of_le hε (not_lt.mp hlt)
      have hN : 2*M/s.h + 1 ≤ ((⌈2*M/s.h⌉ + 1 : ℤ) : ℚ) := by
        have h1 := Int.le_ceil (2*M/s.h)
        push_cast
        linarith
      refine phase_terminates c p ε d0 M hε hM1 hSL s.h (⌈2*M/s.h⌉ + 1) hN
        (fun s' hh' hd' hdle' => ih s' ?_ hd' hdle') _ s rfl hsd hsdle (le_refl _)
      rw [hh']
      have e : ε * 2 ^ (K + 1) = (ε * 2 ^ K) * 2 := by ring
      rw [e] at hK
      linarith

/-- Helper: the squared distance is symmetric in its two points. -/
theorem vec2_distance_squared_comm {K : Type} [CommRing K] (a b : Vec2 K) :
    a.distance_squared b = b.distance_squared a := by
  simp only [Vec2.distance_squared]
  ring

/-- Helper: invariant of the coarse fold: if every listed sample pairs a
parameter with its curve point, the running best keeps `d = quadDistSq(t)` and
never increases above the initial distance bound. -/
theorem coarseFold_inv (c : QuadraticBezier2 ℚ) (p : Vec2 ℚ) (D1 : ℚ) :
    ∀ l : List (ℚ × Vec2 ℚ), (∀ tp ∈ l, tp.2 = c.evaluate tp.1) →
      ∀ acc : ℚ × Vec2 ℚ × ℚ, acc.2.2 = quadDistSq c p acc.1 → acc.2.2 ≤ D1 →
        (coarseFold p l acc).2.2 = quadDistSq c p (coarseFold p l acc).1 ∧
        (coarseFold p l acc).2.2 ≤ D1 := by
  intro l
  induction l with
  | nil => intro _ acc h1 h2; exact ⟨h1, h2⟩
  | cons a l ih =>
    intro hl acc h1 h2
    rw [coarseFold, List.foldl_cons, ← coarseFold]
    by_cases hcmp : a.2.distance_squared p < acc.2.2
    · rw [if_pos hcmp]
      refine ih (fun tp htp => hl tp (List.mem_cons_of_mem a htp)) _ ?_ ?_
      · have ha := hl a (List.mem_cons_self a l)
        simp only [ha, quadDistSq]
        exact vec2_distance_squared_comm _ _
      · exact le_of_lt (lt_of_lt_of_le hcmp h2)
    · rw [if_neg hcmp]
      exact ih (fun tp htp => hl tp (List.mem_cons_of_mem a htp)) acc h1 h2

/-- Helper: properties of the entry state of the refinement loop built by
`binary_search_point_easy`: its distance is the squared distance at its
parameter, and it is at most the endpoint distance. -/
theorem coarseFold_entry (c : QuadraticBezier2 ℚ) (p : Vec2 ℚ) (steps : ℕ) :
    (coarseFold p (c.coarse_list steps) (1, c.end', c.end'.distance_squared p)).2.2 =
      quadDistSq c p
        (coarseFold p (c.coarse_list steps) (1, c.end', c.end'.distance_squared p)).1 ∧
    (coarseFold p (c.coarse_list steps) (1, c.end', c.end'.distance_squared p)).2.2 ≤
      quadDistSq c p 1 := by
  have hend : c.end'.distance_squared p = quadDistSq c p 1 := by
    rw [quadDistSq, ((evaluate_endpoints (K := ℚ)).1 c).2]
    exact vec2_distance_squared_comm _ _
  have hl : ∀ tp ∈ c.coarse_list steps, tp.2 = c.evaluate tp.1 := by
    intro tp htp
    rw [QuadraticBezier2.coarse_list] at htp
    obtain ⟨i, _, rfl⟩ := List.mem_map.mp htp
    rfl
  exact coarseFold_inv c p (quadDistSq c p 1) (c.coarse_list steps) hl
    (1, c.end', c.end'.distance_squared p) (by simpa using hend) (le_of_eq hend)

/-- C3 counterexample: take the quadratic curve (0,0)-(1,0)-(2,0), query point
(10,0), `steps = 1` and `epsilon = 1/4`.  Then `epsilon * steps * 2^2 = 1`, so
`log2(1/(epsilon*steps)) = 2` and the claimed bound is `steps +
log2(1/(epsilon*steps)) = 1 + 2 = 3` iterations; but after 3 refinement
iterations the loop has not yet reached `h < epsilon` (the fuelled loop
returns `none`), because the refinement keeps walking toward the far-away
minimum near t = 5.  The iteration count therefore exceeds the claimed bound. -/
theorem c3_counterexample :
    (⟨⟨0, 0⟩, ⟨1, 0⟩, ⟨2, 0⟩⟩ : QuadraticBezier2 ℚ).binary_search_point_easy
      ⟨10, 0⟩ 1 (1/4) 3 = none ∧
    (1/4 : ℚ) * 1 * 2 ^ 2 = 1 ∧ (1 : ℕ) + 2 = 3 := by
  refine ⟨?_, by norm_num, rfl⟩
  norm_num [QuadraticBezier2.binary_search_point_easy,
    QuadraticBezier2.binary_search_point, QuadraticBezier2.coarse_list,
    coarseFold, QuadraticBezier2.refine_loop, QuadraticBezier2.refine_step,
    QuadraticBezier2.evaluate, Vec2.distance_squared, Vec2.add, Vec2.sub,
    Vec2.mul, List.range_succ]

/-- C3 (amended): for every positive tolerance `epsilon`, the projection
search terminates: some finite fuel makes the fuelled refinement loop reach
`h < epsilon`.  (The iteration count, however, is not bounded by
`steps + log2(1/(epsilon*steps))`: it additionally depends on how far the
improving walk travels, see the counterexample; and for negative nonzero
`epsilon` the loop would never terminate since `h` stays positive.) -/
theorem c3_amended (c : QuadraticBezier2 ℚ) (p : Vec2 ℚ) (steps : ℕ) (ε : ℚ)
    (hε : 0 < ε) :
    ∃ n, (c.binary_search_point_easy p steps ε n).isSome := by
  simp only [QuadraticBezier2.binary_search_point_easy,
    QuadraticBezier2.binary_search_point]
  obtain ⟨hd, hdle⟩ := coarseFold_entry c p steps
  obtain ⟨M, hM1, hSL⟩ := quadDistSq_sublevel c p
    (coarseFold p (c.coarse_list steps) (1, c.end', c.end'.distance_squared p)).2.2 hdle
  obtain ⟨K, hK⟩ := exists_nat_gt (((steps : ℚ) + (steps : ℚ))⁻¹ / ε)
  have hKpow : (K : ℚ) < 2 ^ K := by exact_mod_cast Nat.lt_two_pow K
  have hhK : ((steps : ℚ) + (steps : ℚ))⁻¹ < ε * 2 ^ K := by
    have h1 : ((steps : ℚ) + (steps : ℚ))⁻¹ < (K : ℚ) * ε := (div_lt_iff₀ hε).mp hK
    have h2 : (K : ℚ) * ε < 2 ^ K * ε := by
      exact mul_lt_mul_of_pos_right hKpow hε
    calc ((steps : ℚ) + (steps : ℚ))⁻¹ < (K : ℚ) * ε := h1
      _ < 2 ^ K * ε := h2
      _ = ε * 2 ^ K := by ring
  exact refine_loop_terminates c p ε _ M hε hM1 hSL K
    ⟨(coarseFold p (c.coarse_list steps) (1, c.end', c.end'.distance_squared p)).1,
     (coarseFold p (c.coarse_list steps) (1, c.end', c.end'.distance_squared p)).2.1,
     (coarseFold p (c.coarse_list steps) (1, c.end', c.end'.distance_squared p)).2.2,
     ((steps : ℚ) + (steps : ℚ))⁻¹⟩
    hhK hd (le_refl _)

/-- C3 witness: the termination theorem applied at a concrete curve, query
point, step count and positive tolerance. -/
theorem c3_amended_witness :
    (0 : ℚ) < 1 ∧
    ∃ n, ((⟨⟨0, 0⟩, ⟨1, 0⟩, ⟨2, 0⟩⟩ : QuadraticBezier2 ℚ).binary_search_point_easy
      ⟨3, 0⟩ 2 1 n).isSome :=
  ⟨by norm_num, c3_amended ⟨⟨0, 0⟩, ⟨1, 0⟩, ⟨2, 0⟩⟩ ⟨3, 0⟩ 2 1 (by norm_num)⟩
